import Mathlib

/-!
Verification development for the Avalanche Peer Manager of this repository.

The repository ships the peer-manager unit tests (peermanager_tests.cpp) and
the RPC callers, but the implementation translation units
(avalanche/peermanager.cpp, avalanche/proofcomparator.h) are not part of the
source snapshot.  The definitions below are therefore modelled from the
specification (spec.md §3, §4.A–§4.D, §6), with the repository's own unit
tests used to pin down the behaviours the spec leaves open; each definition's
doc comment records its origin.
-/

namespace Avalanche

/-- Modelled from the spec: a single staked UTXO commitment carried by a
proof (§3 *Proof*, §4.A).  The outpoint is abstracted to a natural number
key; amount, claimed height and the coinbase flag are kept. -/
structure Stake where
  utxo : Nat
  amount : Nat
  height : Nat
  isCoinbase : Bool
deriving DecidableEq

/-- Modelled from the spec: the proof value type (§3): `proof_id` (byte-wise
comparable identifier), `master_pubkey`, `sequence`, and the non-empty
strictly-ordered stake list.  Identifiers and keys are abstracted to natural
numbers, which preserves the byte-wise order used by the comparator. -/
structure Proof where
  proofId : Nat
  master : Nat
  sequence : Nat
  stakes : List Stake
deriving DecidableEq

/-- Total staked amount of a proof (§4.A `staked_amount`). -/
def Proof.stakedAmount (p : Proof) : Nat := (p.stakes.map Stake.amount).sum

/-- Number of stakes of a proof (§4.B rule 3). -/
def Proof.stakeCount (p : Proof) : Nat := p.stakes.length

/-- Modelled from the spec: the score is a function of the staked amounts
only (§4.A); the model uses the staked amount itself as the score. -/
def Proof.score (p : Proof) : Nat := p.stakedAmount

/-- Two proofs are UTXO-equivalent iff their stake outpoint sets intersect
(§4.A). -/
def collidesB (p q : Proof) : Bool :=
  p.stakes.any (fun s => q.stakes.any (fun t => s.utxo == t.utxo))

/-- Modelled from the spec: the conflicting-proof comparator (§4.B).
Lexicographic, stopping at the first difference: higher sequence wins only
when the masters match, then higher staked amount, then lower stake count,
then smaller proof id. -/
def conflictingProofComparator (a b : Proof) : Bool :=
  if a.master = b.master ∧ a.sequence ≠ b.sequence then
    decide (b.sequence < a.sequence)
  else if a.stakedAmount ≠ b.stakedAmount then
    decide (b.stakedAmount < a.stakedAmount)
  else if a.stakeCount ≠ b.stakeCount then
    decide (a.stakeCount < b.stakeCount)
  else
    decide (a.proofId < b.proofId)

/-- The coin view consumed from collaborators (§6): a finite association of
outpoints to the height at which the coin was committed. -/
abbrev CoinView := List (Nat × Nat)

/-- `coin_view.lookup(outpoint)` (§6). -/
def lookupCoin (cv : CoinView) (u : Nat) : Option Nat :=
  (cv.find? (fun e => e.fst == u)).map Prod.snd

/-- Outcome of checking one stake against the coin view (§4.D step 3). -/
inductive StakeStatus where
  | ok
  | missing
  | mismatch
deriving DecidableEq

/-- Modelled from the spec (§4.D step 3): a stake is `missing` when its UTXO
is absent from the active chain, `mismatch` when present at a different
height. -/
def stakeStatus (cv : CoinView) (s : Stake) : StakeStatus :=
  match lookupCoin cv s.utxo with
  | none => .missing
  | some h => if h = s.height then .ok else .mismatch

/-- First failing stake decides the orphan reason (§4.D step 3). -/
def utxoCheck (cv : CoinView) : List Stake → StakeStatus
  | [] => .ok
  | s :: r =>
    match stakeStatus cv s with
    | .ok => utxoCheck cv r
    | st => st

/-- A proof satisfies the on-chain UTXO constraints iff every stake is
present at its claimed height. -/
def validB (cv : CoinView) (p : Proof) : Bool :=
  match utxoCheck cv p.stakes with
  | .ok => true
  | _ => false

/-- The `NO_PEER` sentinel (§4.C); the shallow embedding renders the
sentinel as `none`. -/
def NO_PEER : Option Nat := none

/-- Modelled from the spec: a slot of the weighted selector (§3 *Slot*):
`start` is the cumulative-score prefix, the window is
`[start, start + score)`, and a tombstone carries `peerid = NO_PEER`. -/
structure Slot where
  start : Nat
  score : Nat
  peerid : Option Nat
deriving DecidableEq

/-- The end of a slot's half-open window. -/
def Slot.stop (s : Slot) : Nat := s.start + s.score

/-- Whether a draw falls inside the slot's half-open window. -/
def Slot.containsB (sl : Slot) (s : Nat) : Bool :=
  decide (sl.start ≤ s) && decide (s < sl.stop)

/-- Modelled from the spec: `select_peer` draws `s ∈ [0, total)` and finds
the slot whose window contains `s`, returning its peer id; undershoot,
overshoot and draws in gaps return `NO_PEER`, and a draw in a tombstone
returns the tombstone's `NO_PEER` (§4.C). -/
def selectPeerImpl (slots : List Slot) (s total : Nat) : Option Nat :=
  if total ≤ s then NO_PEER
  else
    match slots.find? (fun sl => sl.containsB s) with
    | some sl => sl.peerid
    | none => NO_PEER

/-- Modelled from the spec: a connected node (§3 *Node*): bound peer
(`NO_PEER`, i.e. `none`, when unbound) and the polling cooldown instant. -/
structure Node where
  nodeid : Nat
  peerid : Option Nat
  nextRequestTime : Nat
deriving DecidableEq

/-- Modelled from the spec: a pending-node entry `(node_id, proof_id)` for a
node announcing a proof the manager does not know (§3 *Pending-node*). -/
structure PendingNode where
  proofId : Nat
  nodeid : Nat
deriving DecidableEq

/-- Modelled from the spec: an accepted peer (§3 *Peer*): dense peer id,
shared proof, and `next_possible_conflict_time` governing the
conflicting-proof cooldown. -/
structure Peer where
  peerid : Nat
  proof : Proof
  nextPossibleConflictTime : Nat
deriving DecidableEq

/-- Modelled from the spec: the peer manager state (§2 components C–F):
slot vector with running total width and fragmentation, indexed peers,
node and pending-node tables, the conflicting and orphan pools, and the
monotone peer-id allocator. -/
structure PeerManager where
  slots : List Slot
  slotCount : Nat
  fragmentation : Nat
  peers : List Peer
  conflictingPool : List Proof
  orphanPool : List Proof
  nodes : List Node
  pendingNodes : List PendingNode
  nextPeerId : Nat
deriving DecidableEq

/-- The initial, empty manager. -/
def emptyPeerManager : PeerManager :=
  { slots := [], slotCount := 0, fragmentation := 0, peers := [],
    conflictingPool := [], orphanPool := [], nodes := [], pendingNodes := [],
    nextPeerId := 0 }

/-- `is_bound_to_peer` (§6). -/
def PeerManager.isBoundToPeerB (pm : PeerManager) (prid : Nat) : Bool :=
  pm.peers.any (fun pr => pr.proof.proofId == prid)

/-- `is_orphan` (§6). -/
def PeerManager.isOrphanB (pm : PeerManager) (prid : Nat) : Bool :=
  pm.orphanPool.any (fun p => p.proofId == prid)

/-- `is_in_conflicting_pool` (§6). -/
def PeerManager.isInConflictingPoolB (pm : PeerManager) (prid : Nat) : Bool :=
  pm.conflictingPool.any (fun p => p.proofId == prid)

/-- `exists` (§6): the proof id is tracked in one of the three pools. -/
def PeerManager.existsB (pm : PeerManager) (prid : Nat) : Bool :=
  pm.isBoundToPeerB prid || pm.isOrphanB prid || pm.isInConflictingPoolB prid

/-- `get_node_count` (§6): number of nodes currently bound to a peer. -/
def PeerManager.getNodeCount (pm : PeerManager) : Nat :=
  (pm.nodes.filter (fun n => !(n.peerid == NO_PEER))).length

/-- `get_pending_node_count` (§6). -/
def PeerManager.getPendingNodeCount (pm : PeerManager) : Nat :=
  pm.pendingNodes.length

/-- Whether a node id sits in the pending table. -/
def PeerManager.isNodePendingB (pm : PeerManager) (nid : Nat) : Bool :=
  pm.pendingNodes.any (fun e => e.nodeid == nid)

/-- `for_node` (§4.D iteration helpers) specialised to a boolean callback. -/
def PeerManager.forNodeB (pm : PeerManager) (nid : Nat) (f : Node → Bool) : Bool :=
  match pm.nodes.find? (fun n => n.nodeid == nid) with
  | some n => f n
  | none => false

/-- Sum of the widths of a slot list. -/
def sumWidths (slots : List Slot) : Nat := (slots.map Slot.score).sum

/-- The slots still owned by a live peer. -/
def liveSlots (slots : List Slot) : List Slot :=
  slots.filter (fun s => !(s.peerid == NO_PEER))

/-- Total width of the tombstoned slots. -/
def tombWidths (slots : List Slot) : Nat :=
  sumWidths (slots.filter (fun s => s.peerid == NO_PEER))

/-- Modelled from the spec: insertion into a bounded per-UTXO pool (§3
invariant 6, §4.D step 4).  The incoming proof enters iff the comparator
prefers it to every entry sharing one of its UTXOs; the displaced losers are
evicted, and a dominated incoming proof is not stored.  The repository's
`conflicting_orphans` and `register_force_accept` tests fix the same rule
for the orphan pool. -/
def poolAdd (p : Proof) (pool : List Proof) : Bool × List Proof :=
  if (pool.filter (fun q => collidesB p q)).all
      (fun q => conflictingProofComparator p q) then
    (true, p :: pool.filter (fun q => !collidesB p q))
  else
    (false, pool)

/-- Bind a node id to a peer, creating the record when the node is unknown
and otherwise re-pointing it while keeping its `next_request_time` (§4.D
`add_node`; the `dangling_node` test fixes the preservation). -/
def bindNode (nodes : List Node) (nid pid : Nat) : List Node :=
  if nodes.any (fun n => n.nodeid == nid) then
    nodes.map (fun n => if n.nodeid == nid then { n with peerid := some pid } else n)
  else
    nodes ++ [{ nodeid := nid, peerid := some pid, nextRequestTime := 0 }]

/-- Modelled from the spec (§4.D step 5): accept a proof as a peer —
allocate the next dense peer id, append a slot at the end of the slot
vector, set `next_possible_conflict_time = now`, and rebind every pending
node announcing this proof. -/
def PeerManager.accept (pm : PeerManager) (p : Proof) (now : Nat) : PeerManager :=
  let pid := pm.nextPeerId
  let toBind := pm.pendingNodes.filter (fun e => e.proofId == p.proofId)
  { pm with
    slots := pm.slots ++ [{ start := pm.slotCount, score := p.score, peerid := some pid }],
    slotCount := pm.slotCount + p.score,
    peers := pm.peers ++ [{ peerid := pid, proof := p, nextPossibleConflictTime := now }],
    nodes := toBind.foldl (fun ns e => bindNode ns e.nodeid pid) pm.nodes,
    pendingNodes := pm.pendingNodes.filter (fun e => !(e.proofId == p.proofId)),
    nextPeerId := pm.nextPeerId + 1 }

/-- Modelled from the spec (§4.C `remove_peer`): tombstone the slot of the
given peer without shifting, or pop it when it is the last slot.  Returns
the new slot list, the width added to fragmentation, and whether the last
slot was popped. -/
def removeSlot (pid : Nat) : List Slot → List Slot × Nat × Bool
  | [] => ([], 0, false)
  | [s] => if s.peerid == some pid then ([], 0, true) else ([s], 0, false)
  | s :: t :: r =>
    if s.peerid == some pid then
      ({ s with peerid := NO_PEER } :: t :: r, s.score, false)
    else
      let res := removeSlot pid (t :: r)
      (s :: res.1, res.2.1, res.2.2)

/-- Stop of the last slot, 0 for an empty vector; the total shrinks to this
value when the last slot is popped (§4.C). -/
def lastStop (slots : List Slot) : Nat :=
  match slots.getLast? with
  | some s => s.stop
  | none => 0

/-- Modelled from the spec (§4.D `remove_peer`): drop the peer record,
tombstone (or pop) its slot, keep the node records but unbind them and
return them to the pending table under this proof's id.  The
`dangling_node` test fixes that records survive with their
`next_request_time`. -/
def PeerManager.removePeerCore (pm : PeerManager) (pr : Peer) : PeerManager :=
  let res := removeSlot pr.peerid pm.slots
  let freed := (pm.nodes.filter (fun n => n.peerid == some pr.peerid)).map
    (fun n => PendingNode.mk pr.proof.proofId n.nodeid)
  { pm with
    slots := res.1,
    fragmentation := pm.fragmentation + res.2.1,
    slotCount := if res.2.2 then lastStop res.1 else pm.slotCount,
    peers := pm.peers.filter (fun q => !(q.peerid == pr.peerid)),
    nodes := pm.nodes.map
      (fun n => if n.peerid == some pr.peerid then { n with peerid := NO_PEER } else n),
    pendingNodes := freed ++ pm.pendingNodes }

/-- `remove_peer(peer_id)` (§4.D): returns true iff the peer was found; no
conflicting-pool promotion is performed here. -/
def PeerManager.removePeer (pm : PeerManager) (pid : Nat) : PeerManager × Bool :=
  match pm.peers.find? (fun pr => pr.peerid == pid) with
  | some pr => (pm.removePeerCore pr, true)
  | none => (pm, false)

/-- Demote a live peer into the conflicting pool (§4.D step 4): remove it as
a peer and offer its proof to the per-UTXO pool. -/
def PeerManager.demoteToConflicting (pm : PeerManager) (pr : Peer) : PeerManager :=
  let pm1 := pm.removePeerCore pr
  { pm1 with conflictingPool := (poolAdd pr.proof pm1.conflictingPool).2 }

/-- Demote a live peer into the orphan pool (§4.D `updated_block_tip`):
remove it as a peer and offer its proof to the orphan pool. -/
def PeerManager.demoteToOrphan (pm : PeerManager) (pr : Peer) : PeerManager :=
  let pm1 := pm.removePeerCore pr
  { pm1 with orphanPool := (poolAdd pr.proof pm1.orphanPool).2 }

/-- Registration modes (§4.D). -/
inductive RegistrationMode where
  | DEFAULT
  | FORCE_ACCEPT
deriving DecidableEq

/-- The closed reason enum of `register_proof` (§4.D), with `SUCCESS` for
an accepted registration. -/
inductive RegistrationResult where
  | SUCCESS
  | ALREADY_REGISTERED
  | INVALID
  | MISSING_UTXO
  | HEIGHT_MISMATCH
  | COOLDOWN_NOT_ELAPSED
  | CONFLICTING
  | REJECTED
deriving DecidableEq

/-- Reject-with-orphan-reason: the proof is offered to the orphan pool
(§4.D step 3). -/
def PeerManager.toOrphanPool (pm : PeerManager) (p : Proof) : PeerManager :=
  { pm with orphanPool := (poolAdd p pm.orphanPool).2 }

/-- Modelled from the spec (§4.D step 4): collision handling of
`register_proof` once the proof passed the UTXO checks.  In `DEFAULT` mode
the cooldown gate runs first (`now < next_possible_conflict_time +
cooldown` on any collider blocks the attempt); a proof preferred to all
colliders replaces them only when `enableavalancheproofreplacement` is set
(§6); otherwise the proof is offered to the conflicting pool, updating each
collider's `next_possible_conflict_time` on insertion, or `REJECTED` when
dominated there.  `FORCE_ACCEPT` skips cooldown and comparator and demotes
all colliders. -/
def PeerManager.handleCollisions (pm : PeerManager) (now cooldown : Nat)
    (replacementEnabled : Bool) (p : Proof) (mode : RegistrationMode) :
    PeerManager × RegistrationResult :=
  if (pm.peers.filter (fun pr => collidesB p pr.proof)).isEmpty then
    (pm.accept p now, .SUCCESS)
  else
    match mode with
    | .FORCE_ACCEPT =>
      (((pm.peers.filter (fun pr => collidesB p pr.proof)).foldl
          PeerManager.demoteToConflicting pm).accept p now, .SUCCESS)
    | .DEFAULT =>
      if (pm.peers.filter (fun pr => collidesB p pr.proof)).any
          (fun pr => decide (now < pr.nextPossibleConflictTime + cooldown)) then
        (pm, .COOLDOWN_NOT_ELAPSED)
      else if replacementEnabled
          && (pm.peers.filter (fun pr => collidesB p pr.proof)).all
              (fun pr => conflictingProofComparator p pr.proof) then
        (((pm.peers.filter (fun pr => collidesB p pr.proof)).foldl
            PeerManager.demoteToConflicting pm).accept p now, .SUCCESS)
      else
        if (poolAdd p pm.conflictingPool).1 then
          ({ pm with
             conflictingPool := (poolAdd p pm.conflictingPool).2,
             peers := pm.peers.map (fun pr =>
               if collidesB p pr.proof then { pr with nextPossibleConflictTime := now }
               else pr) }, .CONFLICTING)
        else (pm, .REJECTED)

/-- Pull a proof id out of the conflicting and orphan pools (the
`FORCE_ACCEPT` re-registration path). -/
def PeerManager.pullFromPools (pm : PeerManager) (prid : Nat) : PeerManager :=
  { pm with
    conflictingPool := pm.conflictingPool.filter (fun q => !(q.proofId == prid)),
    orphanPool := pm.orphanPool.filter (fun q => !(q.proofId == prid)) }

/-- Modelled from the spec (§4.D `register_proof`): duplicate detection,
UTXO checks against the coin view, then collision handling.  A proof bound
to a peer is `ALREADY_REGISTERED` in both modes; a proof sitting in the
orphan or conflicting pool is `ALREADY_REGISTERED` in `DEFAULT` mode, while
`FORCE_ACCEPT` pulls it out of the pools and proceeds (fixed by the
`register_force_accept` test).  Cryptographic validation (§4.D step 2) is
delegated to the external verifier and not part of the model. -/
def PeerManager.registerProof (pm : PeerManager) (cv : CoinView)
    (now cooldown : Nat) (replacementEnabled : Bool) (p : Proof)
    (mode : RegistrationMode) : PeerManager × RegistrationResult :=
  if pm.isBoundToPeerB p.proofId then (pm, .ALREADY_REGISTERED)
  else
    match mode with
    | .DEFAULT =>
      if pm.isOrphanB p.proofId || pm.isInConflictingPoolB p.proofId then
        (pm, .ALREADY_REGISTERED)
      else
        match utxoCheck cv p.stakes with
        | .missing => (pm.toOrphanPool p, .MISSING_UTXO)
        | .mismatch => (pm.toOrphanPool p, .HEIGHT_MISMATCH)
        | .ok => pm.handleCollisions now cooldown replacementEnabled p .DEFAULT
    | .FORCE_ACCEPT =>
      match utxoCheck cv p.stakes with
      | .missing => ((pm.pullFromPools p.proofId).toOrphanPool p, .MISSING_UTXO)
      | .mismatch => ((pm.pullFromPools p.proofId).toOrphanPool p, .HEIGHT_MISMATCH)
      | .ok => (pm.pullFromPools p.proofId).handleCollisions
          now cooldown replacementEnabled p .FORCE_ACCEPT

/-- `add_node(node_id, proof_id)` (§4.D): bind when the proof names a peer,
otherwise park the node in the pending table (removing any stale bound
record, as the proof is unknown). -/
def PeerManager.addNode (pm : PeerManager) (nid prid : Nat) : PeerManager × Bool :=
  match pm.peers.find? (fun pr => pr.proof.proofId == prid) with
  | some pr =>
    ({ pm with
       pendingNodes := pm.pendingNodes.filter (fun e => !(e.nodeid == nid)),
       nodes := bindNode pm.nodes nid pr.peerid }, true)
  | none =>
    ({ pm with
       nodes := pm.nodes.filter (fun n => !(n.nodeid == nid)),
       pendingNodes :=
         { proofId := prid, nodeid := nid } ::
           pm.pendingNodes.filter (fun e => !(e.nodeid == nid)) }, false)

/-- `remove_node(node_id)` (§4.D). -/
def PeerManager.removeNode (pm : PeerManager) (nid : Nat) : PeerManager × Bool :=
  let existed := pm.nodes.any (fun n => n.nodeid == nid)
      || pm.pendingNodes.any (fun e => e.nodeid == nid)
  ({ pm with
     nodes := pm.nodes.filter (fun n => !(n.nodeid == nid)),
     pendingNodes := pm.pendingNodes.filter (fun e => !(e.nodeid == nid)) }, existed)

/-- `update_next_request_time(node_id, when)` (§4.D): not required to be
monotone. -/
def PeerManager.updateNextRequestTime (pm : PeerManager) (nid t : Nat) :
    PeerManager × Bool :=
  if pm.nodes.any (fun n => n.nodeid == nid) then
    let ns := pm.nodes.map
      (fun n => if n.nodeid == nid then { n with nextRequestTime := t } else n)
    ({ pm with nodes := ns }, true)
  else (pm, false)

/-- Re-base a slot list to consecutive cumulative starts. -/
def rebase : Nat → List Slot → List Slot
  | _, [] => []
  | x, s :: r => { start := x, score := s.score, peerid := s.peerid } :: rebase (x + s.score) r

/-- `compact()` (§4.C): rebuild the slot vector dropping tombstones and
return the width reclaimed. -/
def PeerManager.compact (pm : PeerManager) : PeerManager × Nat :=
  let live := liveSlots pm.slots
  ({ pm with slots := rebase 0 live, slotCount := sumWidths live, fragmentation := 0 },
   pm.slotCount - sumWidths live)

/-- First rescan stage (§4.D `updated_block_tip`): demote every peer whose
proof no longer satisfies the chain state to the orphan pool. -/
def PeerManager.tipDemote (pm : PeerManager) (cv : CoinView) : PeerManager :=
  (pm.peers.filter (fun pr => !(validB cv pr.proof))).foldl
    PeerManager.demoteToOrphan pm

/-- Second rescan stage: pull every orphan that now satisfies the chain
state out of the orphan pool and re-register it through the registration
path. -/
def PeerManager.tipPromote (pm : PeerManager) (cv : CoinView)
    (now cooldown : Nat) (replacementEnabled : Bool) : PeerManager :=
  (pm.orphanPool.filter (fun p => validB cv p)).foldl
    (fun s p => (s.registerProof cv now cooldown replacementEnabled p .DEFAULT).1)
    { pm with orphanPool := pm.orphanPool.filter (fun p => !(validB cv p)) }

/-- Third rescan stage: re-evaluate the conflicting pool — entries gone
invalid become orphans, entries whose UTXOs are free of live claimers are
promoted, the rest stay. -/
def PeerManager.tipConflicting (pm : PeerManager) (cv : CoinView) (now : Nat) :
    PeerManager :=
  pm.conflictingPool.foldl (fun s p =>
    if !(validB cv p) then { s with orphanPool := (poolAdd p s.orphanPool).2 }
    else if s.peers.any (fun pr => collidesB p pr.proof) then
      { s with conflictingPool := (poolAdd p s.conflictingPool).2 }
    else s.accept p now) { pm with conflictingPool := [] }

/-- Modelled from the spec (§4.D `updated_block_tip`): demote every peer
that no longer satisfies the chain state to the orphan pool (its nodes
revert to pending), re-register every orphan that now satisfies the chain
state through the registration path, and re-evaluate the conflicting pool:
entries gone invalid become orphans, entries whose UTXOs are free of live
claimers are promoted (fixed by the `conflicting_proof_rescan` test), and
the rest stay. -/
def PeerManager.updatedBlockTip (pm : PeerManager) (cv : CoinView)
    (now cooldown : Nat) (replacementEnabled : Bool) : PeerManager :=
  (((pm.tipDemote cv).tipPromote cv now cooldown replacementEnabled).tipConflicting
    cv now)

/-- The registration pass of the second rescan stage as a standalone fold,
for reasoning about `tipPromote` step by step. -/
def regFold (cv : CoinView) (now cooldown : Nat) (repl : Bool)
    (R : List Proof) (s : PeerManager) : PeerManager :=
  R.foldl (fun t p => (t.registerProof cv now cooldown repl p .DEFAULT).1) s

/-- An operation over the manager for sequences of peer additions,
removals and compactions (the operations quantified by the fragmentation
accounting property, §8.2). -/
inductive SROp where
  | reg (cv : CoinView) (now cooldown : Nat) (repl : Bool) (p : Proof)
      (mode : RegistrationMode)
  | rem (pid : Nat)
  | cmp

/-- Apply one operation, discarding the reported outcome. -/
def SROp.apply (pm : PeerManager) : SROp → PeerManager
  | .reg cv now cooldown repl p mode =>
    (pm.registerProof cv now cooldown repl p mode).1
  | .rem pid => (pm.removePeer pid).1
  | .cmp => pm.compact.1

/-- Run a sequence of operations from the empty manager. -/
def runOps (ops : List SROp) : PeerManager :=
  ops.foldl SROp.apply emptyPeerManager

/-- Whether the slot currently owned by the given peer is the last slot of
the vector (the case in which `remove_peer` shrinks the total, §4.C). -/
def PeerManager.isLastSlotB (pm : PeerManager) (pid : Nat) : Bool :=
  match pm.slots.getLast? with
  | some sl => sl.peerid == some pid
  | none => false

/-- The slot vector is a contiguous sequence of windows beginning at the
given offset. -/
def contigFrom : Nat → List Slot → Prop
  | _, [] => True
  | x, sl :: r => sl.start = x ∧ contigFrom (sl.start + sl.score) r

/-- Identification key of a live slot. -/
def slotKey (sl : Slot) : Option Nat × Nat := (sl.peerid, sl.score)

/-- Identification key of a peer record. -/
def peerKey (pr : Peer) : Option Nat × Nat := (some pr.peerid, pr.proof.score)

/-- The internal consistency of the slot subsystem: contiguous windows, the
stored total equals the sum of widths, fragmentation equals the tombstoned
width, live slots and peer records correspond one to one in order, and peer
ids are fresh and distinct (§3 invariants 1–3). -/
structure SlotInv (pm : PeerManager) : Prop where
  contig : contigFrom 0 pm.slots
  count : pm.slotCount = sumWidths pm.slots
  frag : pm.fragmentation = tombWidths pm.slots
  keys : (liveSlots pm.slots).map slotKey = pm.peers.map peerKey
  fresh : ∀ pr ∈ pm.peers, pr.peerid < pm.nextPeerId
  nodup : (pm.peers.map Peer.peerid).Nodup

/-! ### Helper lemmas -/

theorem decide_lt_flip {x y : Nat} (h : x ≠ y) :
    decide (x < y) = !decide (y < x) := by
  rcases Nat.lt_or_ge x y with h1 | h1
  · simp [h1, Nat.le_of_lt h1, Nat.not_lt]
  · have h2 : y < x := Nat.lt_of_le_of_ne h1 (Ne.symm h)
    simp [h2, Nat.le_of_lt h2, Nat.not_lt]

theorem selectPeer_found (slots : List Slot)
    (hsorted : slots.Pairwise (fun a b => a.stop ≤ b.start))
    (sl : Slot) (hmem : sl ∈ slots) (hc : sl.containsB s = true) :
    slots.find? (fun x => x.containsB s) = some sl := by
  induction slots with
  | nil => cases hmem
  | cons h t ih =>
    rcases List.mem_cons.mp hmem with rfl | hmt
    · simp [List.find?, hc]
    · have hdisj : h.stop ≤ sl.start := (List.pairwise_cons.mp hsorted).1 sl hmt
      have hns : h.containsB s = false := by
        simp only [Slot.containsB, Bool.and_eq_true, decide_eq_true_eq] at hc ⊢
        simp only [Bool.and_eq_false_iff, decide_eq_false_iff_not, Nat.not_le, Nat.not_lt]
        right
        exact Nat.le_trans hdisj hc.1
      simp only [List.find?, hns]
      exact ih (List.pairwise_cons.mp hsorted).2 hmt

theorem sumWidths_cons (a : Slot) (l : List Slot) :
    sumWidths (a :: l) = a.score + sumWidths l := by
  simp [sumWidths]

theorem liveSlots_cons_live (a : Slot) (l : List Slot)
    (h : (a.peerid == NO_PEER) = false) :
    liveSlots (a :: l) = a :: liveSlots l := by
  simp [liveSlots, List.filter_cons, h]

theorem liveSlots_cons_tomb (a : Slot) (l : List Slot)
    (h : (a.peerid == NO_PEER) = true) :
    liveSlots (a :: l) = liveSlots l := by
  simp [liveSlots, List.filter_cons, h]

theorem tombWidths_cons_live (a : Slot) (l : List Slot)
    (h : (a.peerid == NO_PEER) = false) :
    tombWidths (a :: l) = tombWidths l := by
  simp [tombWidths, List.filter_cons, h]

theorem tombWidths_cons_tomb (a : Slot) (l : List Slot)
    (h : (a.peerid == NO_PEER) = true) :
    tombWidths (a :: l) = a.score + tombWidths l := by
  simp [tombWidths, sumWidths, List.filter_cons, h]

theorem sumWidths_split (l : List Slot) :
    sumWidths l = sumWidths (liveSlots l) + tombWidths l := by
  induction l with
  | nil => rfl
  | cons a l ih =>
    by_cases h : (a.peerid == NO_PEER) = true
    · rw [sumWidths_cons, liveSlots_cons_tomb a l h, tombWidths_cons_tomb a l h, ih]
      omega
    · rw [sumWidths_cons, liveSlots_cons_live a l (Bool.not_eq_true _ ▸ h),
        tombWidths_cons_live a l (Bool.not_eq_true _ ▸ h), sumWidths_cons, ih]
      omega

theorem contigFrom_lastStop (l : List Slot) :
    ∀ x, contigFrom x l → l ≠ [] → lastStop l = x + sumWidths l := by
  induction l with
  | nil => intro x _ h; exact absurd rfl h
  | cons a l ih =>
    intro x hc _
    obtain ⟨hstart, hrest⟩ := hc
    cases l with
    | nil =>
      simp [lastStop, Slot.stop, sumWidths, hstart]
    | cons b r =>
      have hrec := ih (a.start + a.score) hrest (by simp)
      have h1 : lastStop (a :: b :: r) = lastStop (b :: r) := by
        unfold lastStop
        rw [List.getLast?_cons_cons]
      rw [h1, hrec]
      simp only [sumWidths_cons, hstart]
      omega

theorem contigFrom_zero_lastStop (l : List Slot) (h : contigFrom 0 l) :
    lastStop l = sumWidths l := by
  cases l with
  | nil => rfl
  | cons a r => simpa using contigFrom_lastStop (a :: r) 0 h (by simp)

/-- Full specification of `removeSlot` on a slot vector consistent with the
peer table. -/
theorem removeSlot_spec (pid sc : Nat) (l : List Slot) :
    ∀ (P : List Peer) (x : Nat) (pr : Peer),
    contigFrom x l →
    (liveSlots l).map slotKey = P.map peerKey →
    (P.map Peer.peerid).Nodup →
    pr ∈ P → pr.peerid = pid → pr.proof.score = sc →
    contigFrom x (removeSlot pid l).1
    ∧ sumWidths l
        = sumWidths (removeSlot pid l).1 + (if (removeSlot pid l).2.2 then sc else 0)
    ∧ tombWidths (removeSlot pid l).1 = tombWidths l + (removeSlot pid l).2.1
    ∧ ((removeSlot pid l).2.2 = true → (removeSlot pid l).2.1 = 0)
    ∧ ((removeSlot pid l).2.2 = false → (removeSlot pid l).2.1 = sc)
    ∧ (liveSlots (removeSlot pid l).1).map slotKey
        = (P.filter (fun q => !(q.peerid == pid))).map peerKey
    ∧ (removeSlot pid l).2.2
        = (match l.getLast? with
           | some sl => sl.peerid == some pid
           | none => false) := by
  induction l with
  | nil =>
    intro P x pr hcontig hkeys hnodup hmem hpid hsc
    simp only [liveSlots, List.filter_nil, List.map_nil] at hkeys
    have : P = [] := by
      cases P with
      | nil => rfl
      | cons a t => simp at hkeys
    subst this
    cases hmem
  | cons s l ih =>
    intro P x pr hcontig hkeys hnodup hmem hpid hsc
    cases l with
    | nil =>
      by_cases hs : (s.peerid == some pid) = true
      · have hlive : (s.peerid == NO_PEER) = false := by
          simp only [beq_iff_eq] at hs
          simp [NO_PEER, hs]
        rw [liveSlots_cons_live s [] hlive] at hkeys
        simp only [liveSlots, List.filter_nil, List.map_cons, List.map_nil] at hkeys
        obtain ⟨P0, P', hP⟩ : ∃ P0 P', P = P0 :: P' := by
          cases P with
          | nil => simp at hkeys
          | cons a t => exact ⟨a, t, rfl⟩
        subst hP
        simp only [List.map_cons] at hkeys
        have hP' : P' = [] := by
          cases P' with
          | nil => rfl
          | cons b t => simp at hkeys
        subst hP'
        have hpr : pr = P0 := by
          rcases List.mem_singleton.mp hmem with h
          exact h
        subst hpr
        have hkey0 : slotKey s = peerKey pr := by
          injection hkeys
        have hscore : s.score = sc := by
          have := congrArg Prod.snd hkey0
          simpa [slotKey, peerKey, hsc] using this
        have step : removeSlot pid [s] = ([], 0, true) := by
          simp [removeSlot, hs]
        rw [step]
        refine ⟨trivial, ?_, ?_, ?_, ?_, ?_, ?_⟩
        · simp [sumWidths, hscore]
        · simp [tombWidths, sumWidths, List.filter_cons, hlive]
        · intro _; rfl
        · intro h; exact absurd h (by decide)
        · have : pr.peerid = pid := hpid
          simp [liveSlots, List.filter_cons, this]
        · simp [List.getLast?, hs]
      · exfalso
        by_cases hlive : (s.peerid == NO_PEER) = true
        · rw [liveSlots_cons_tomb s [] hlive] at hkeys
          simp only [liveSlots, List.filter_nil, List.map_nil] at hkeys
          have : P = [] := by
            cases P with
            | nil => rfl
            | cons a t => simp at hkeys
          subst this
          cases hmem
        · rw [liveSlots_cons_live s [] (Bool.not_eq_true _ ▸ hlive)] at hkeys
          simp only [liveSlots, List.filter_nil, List.map_cons, List.map_nil] at hkeys
          obtain ⟨P0, P', hP⟩ : ∃ P0 P', P = P0 :: P' := by
            cases P with
            | nil => simp at hkeys
            | cons a t => exact ⟨a, t, rfl⟩
          subst hP
          simp only [List.map_cons] at hkeys
          have hP' : P' = [] := by
            cases P' with
            | nil => rfl
            | cons b t => simp at hkeys
          subst hP'
          have hpr : pr = P0 := List.mem_singleton.mp hmem
          subst hpr
          have hkey0 : slotKey s = peerKey pr := by injection hkeys
          have : s.peerid = some pid := by
            have := congrArg Prod.fst hkey0
            simpa [slotKey, peerKey, hpid] using this
          simp [this] at hs
    | cons t r =>
      obtain ⟨hstart, hrest⟩ := hcontig
      by_cases hs : (s.peerid == some pid) = true
      · -- head slot owned by the removed peer: tombstone in place
        have hlive : (s.peerid == NO_PEER) = false := by
          simp only [beq_iff_eq] at hs
          simp [NO_PEER, hs]
        rw [liveSlots_cons_live s (t :: r) hlive] at hkeys
        obtain ⟨P0, P', hP⟩ : ∃ P0 P', P = P0 :: P' := by
          cases P with
          | nil => simp at hkeys
          | cons a tl => exact ⟨a, tl, rfl⟩
        subst hP
        simp only [List.map_cons, List.cons.injEq] at hkeys
        obtain ⟨hkey0, hkeys'⟩ := hkeys
        have hid0 : P0.peerid = pid := by
          have := congrArg Prod.fst hkey0
          simp only [slotKey, peerKey] at this
          simp only [beq_iff_eq] at hs
          rw [hs] at this
          exact (Option.some_injective _ this).symm
        have hpr : pr = P0 := by
          rcases List.mem_cons.mp hmem with h | h
          · exact h
          · exfalso
            have hnd := hnodup
            simp only [List.map_cons, List.nodup_cons] at hnd
            apply hnd.1
            rw [hid0, ← hpid]
            exact List.mem_map_of_mem Peer.peerid h
        subst hpr
        have hscore : s.score = sc := by
          have := congrArg Prod.snd hkey0
          simpa [slotKey, peerKey, hsc] using this
        have hfilter : P'.filter (fun q => !(q.peerid == pid)) = P' := by
          apply List.filter_eq_self.mpr
          intro q hq
          simp only [Bool.not_eq_true', beq_eq_false_iff_ne, ne_eq]
          intro hqe
          have hnd := hnodup
          simp only [List.map_cons, List.nodup_cons] at hnd
          apply hnd.1
          rw [hid0, ← hqe]
          exact List.mem_map_of_mem Peer.peerid hq
        have step : removeSlot pid (s :: t :: r)
            = ({ s with peerid := NO_PEER } :: t :: r, s.score, false) := by
          simp [removeSlot, hs]
        rw [step]
        dsimp only
        refine ⟨⟨hstart, hrest⟩, ?_, ?_, ?_, ?_, ?_, ?_⟩
        · simp [sumWidths]
        · rw [tombWidths_cons_tomb _ _ (by simp [NO_PEER]),
            tombWidths_cons_live s (t :: r) hlive]
          exact Nat.add_comm _ _
        · intro h; exact absurd h (by decide)
        · intro _; exact hscore
        · rw [liveSlots_cons_tomb _ _ (by simp [NO_PEER])]
          simp only [List.filter_cons]
          simp only [hid0, beq_self_eq_true, Bool.not_true]
          rw [hfilter]
          exact hkeys'
        · -- the last slot of t :: r is not owned by pid
          have hlast : ∀ sl ∈ t :: r, (sl.peerid == some pid) = false := by
            intro sl hsl
            by_cases hsl2 : (sl.peerid == NO_PEER) = true
            · have hnone : sl.peerid = none := by simpa [NO_PEER] using hsl2
              simp [hnone]
            · have hslmem : sl ∈ liveSlots (t :: r) := by
                simp [liveSlots, List.mem_filter, hsl, hsl2]
              have : slotKey sl ∈ P'.map peerKey := by
                rw [← hkeys']
                exact List.mem_map_of_mem slotKey hslmem
              simp only [beq_eq_false_iff_ne, ne_eq]
              intro hcontra
              obtain ⟨q, hq, hqkey⟩ := List.mem_map.mp this
              have hq2 : some q.peerid = some pid := by
                have hfst := congrArg Prod.fst hqkey
                simp only [peerKey, slotKey] at hfst
                rw [hfst]
                exact hcontra
              have hqpid : q.peerid = pid := Option.some_injective _ hq2
              have hnd := hnodup
              simp only [List.map_cons, List.nodup_cons] at hnd
              apply hnd.1
              rw [hid0, ← hqpid]
              exact List.mem_map_of_mem Peer.peerid hq
          have : (t :: r).getLast? = some ((t :: r).getLast (by simp)) :=
            List.getLast?_eq_getLast _ _
          simp only [List.getLast?_cons_cons, this]
          exact (hlast _ (List.getLast_mem _)).symm
      · -- head slot kept; recurse
        have e1 : (removeSlot pid (s :: t :: r)).1
            = s :: (removeSlot pid (t :: r)).1 := by
          simp [removeSlot, hs]
        have e2 : (removeSlot pid (s :: t :: r)).2.1
            = (removeSlot pid (t :: r)).2.1 := by
          simp [removeSlot, hs]
        have e3 : (removeSlot pid (s :: t :: r)).2.2
            = (removeSlot pid (t :: r)).2.2 := by
          simp [removeSlot, hs]
        by_cases hlive : (s.peerid == NO_PEER) = true
        · -- head is a tombstone: same peer table
          rw [liveSlots_cons_tomb s (t :: r) hlive] at hkeys
          obtain ⟨hc, hsum, htomb, hp0, hp1, hk, hpop⟩ :=
            ih P (s.start + s.score) pr hrest hkeys hnodup hmem hpid hsc
          rw [e1, e2, e3]
          refine ⟨⟨hstart, hc⟩, ?_, ?_, hp0, hp1, ?_, ?_⟩
          · rw [sumWidths_cons s (t :: r),
              sumWidths_cons s (removeSlot pid (t :: r)).1, hsum]
            omega
          · rw [tombWidths_cons_tomb _ _ hlive, tombWidths_cons_tomb _ _ hlive, htomb]
            omega
          · rw [liveSlots_cons_tomb _ _ hlive]
            exact hk
          · simp only [List.getLast?_cons_cons] at hpop ⊢
            exact hpop
        · -- head is another live peer's slot
          have hlive' : (s.peerid == NO_PEER) = false := Bool.not_eq_true _ ▸ hlive
          rw [liveSlots_cons_live s (t :: r) hlive'] at hkeys
          obtain ⟨P0, P', hP⟩ : ∃ P0 P', P = P0 :: P' := by
            cases P with
            | nil => simp at hkeys
            | cons a tl => exact ⟨a, tl, rfl⟩
          subst hP
          simp only [List.map_cons, List.cons.injEq] at hkeys
          obtain ⟨hkey0, hkeys'⟩ := hkeys
          have hid0 : P0.peerid ≠ pid := by
            intro hcontra
            have := congrArg Prod.fst hkey0
            simp only [slotKey, peerKey] at this
            rw [hcontra] at this
            simp [this] at hs
          have hmem' : pr ∈ P' := by
            rcases List.mem_cons.mp hmem with h | h
            · exfalso
              rw [h] at hpid
              exact hid0 hpid
            · exact h
          have hnodup' : (P'.map Peer.peerid).Nodup := by
            simp only [List.map_cons, List.nodup_cons] at hnodup
            exact hnodup.2
          obtain ⟨hc, hsum, htomb, hp0, hp1, hk, hpop⟩ :=
            ih P' (s.start + s.score) pr hrest hkeys' hnodup' hmem' hpid hsc
          rw [e1, e2, e3]
          refine ⟨⟨hstart, hc⟩, ?_, ?_, hp0, hp1, ?_, ?_⟩
          · rw [sumWidths_cons s (t :: r),
              sumWidths_cons s (removeSlot pid (t :: r)).1, hsum]
            omega
          · rw [tombWidths_cons_live _ _ hlive', tombWidths_cons_live _ _ hlive', htomb]
          · rw [liveSlots_cons_live _ _ hlive']
            simp only [List.filter_cons]
            have : (!(P0.peerid == pid)) = true := by
              simp [hid0]
            rw [this]
            simp only [if_pos, List.map_cons]
            rw [hk, hkey0]
          · simp only [List.getLast?_cons_cons] at hpop ⊢
            exact hpop

theorem slotInv_empty : SlotInv emptyPeerManager := by
  refine ⟨trivial, rfl, rfl, rfl, ?_, ?_⟩
  · intro pr h
    cases h
  · exact List.nodup_nil

theorem sumWidths_append (l1 l2 : List Slot) :
    sumWidths (l1 ++ l2) = sumWidths l1 + sumWidths l2 := by
  simp [sumWidths]

theorem liveSlots_append (l1 l2 : List Slot) :
    liveSlots (l1 ++ l2) = liveSlots l1 ++ liveSlots l2 := by
  simp [liveSlots, List.filter_append]

theorem contigFrom_append (l : List Slot) :
    ∀ x sc pid, contigFrom x l →
    contigFrom x (l ++ [{ start := x + sumWidths l, score := sc, peerid := pid }]) := by
  induction l with
  | nil =>
    intro x sc pid _
    exact ⟨by simp [sumWidths], trivial⟩
  | cons a r ih =>
    intro x sc pid h
    obtain ⟨hstart, hrest⟩ := h
    refine ⟨hstart, ?_⟩
    have := ih (a.start + a.score) sc pid hrest
    have harith : a.start + a.score + sumWidths r = x + sumWidths (a :: r) := by
      rw [sumWidths_cons, hstart]
      omega
    rw [harith] at this
    exact this

/-- `SlotInv` only looks at the slot vector, the counters, the peer table
and the id allocator. -/
theorem slotInv_of_eq (pm pm' : PeerManager) (h : SlotInv pm)
    (h1 : pm'.slots = pm.slots) (h2 : pm'.slotCount = pm.slotCount)
    (h3 : pm'.fragmentation = pm.fragmentation) (h4 : pm'.peers = pm.peers)
    (h5 : pm'.nextPeerId = pm.nextPeerId) : SlotInv pm' := by
  refine ⟨?_, ?_, ?_, ?_, ?_, ?_⟩
  · rw [h1]; exact h.contig
  · rw [h1, h2]; exact h.count
  · rw [h1, h3]; exact h.frag
  · rw [h1, h4]; exact h.keys
  · rw [h4, h5]; exact h.fresh
  · rw [h4]; exact h.nodup

theorem accept_slots (pm : PeerManager) (p : Proof) (now : Nat) :
    (pm.accept p now).slots = pm.slots
      ++ [{ start := pm.slotCount, score := p.score, peerid := some pm.nextPeerId }] := rfl

theorem accept_slotCount (pm : PeerManager) (p : Proof) (now : Nat) :
    (pm.accept p now).slotCount = pm.slotCount + p.score := rfl

theorem accept_fragmentation (pm : PeerManager) (p : Proof) (now : Nat) :
    (pm.accept p now).fragmentation = pm.fragmentation := rfl

theorem accept_peers (pm : PeerManager) (p : Proof) (now : Nat) :
    (pm.accept p now).peers = pm.peers
      ++ [{ peerid := pm.nextPeerId, proof := p, nextPossibleConflictTime := now }] := rfl

theorem accept_nextPeerId (pm : PeerManager) (p : Proof) (now : Nat) :
    (pm.accept p now).nextPeerId = pm.nextPeerId + 1 := rfl

theorem accept_conflictingPool (pm : PeerManager) (p : Proof) (now : Nat) :
    (pm.accept p now).conflictingPool = pm.conflictingPool := rfl

theorem accept_orphanPool (pm : PeerManager) (p : Proof) (now : Nat) :
    (pm.accept p now).orphanPool = pm.orphanPool := rfl

theorem accept_pendingNodes (pm : PeerManager) (p : Proof) (now : Nat) :
    (pm.accept p now).pendingNodes
      = pm.pendingNodes.filter (fun e => !(e.proofId == p.proofId)) := rfl

theorem accept_nodes (pm : PeerManager) (p : Proof) (now : Nat) :
    (pm.accept p now).nodes
      = (pm.pendingNodes.filter (fun e => e.proofId == p.proofId)).foldl
          (fun ns e => bindNode ns e.nodeid pm.nextPeerId) pm.nodes := rfl

theorem slotInv_accept (pm : PeerManager) (p : Proof) (now : Nat)
    (h : SlotInv pm) : SlotInv (pm.accept p now) := by
  refine ⟨?_, ?_, ?_, ?_, ?_, ?_⟩
  · rw [accept_slots]
    have := contigFrom_append pm.slots 0 p.score (some pm.nextPeerId) h.contig
    rw [← h.count] at this
    simpa using this
  · rw [accept_slots, accept_slotCount, sumWidths_append, h.count]
    simp [sumWidths]
  · rw [accept_slots, accept_fragmentation, h.frag]
    unfold tombWidths
    rw [List.filter_append]
    simp [sumWidths, NO_PEER]
  · rw [accept_slots, accept_peers, liveSlots_append]
    have hlast : liveSlots
        [{ start := pm.slotCount, score := p.score, peerid := some pm.nextPeerId }]
        = [{ start := pm.slotCount, score := p.score, peerid := some pm.nextPeerId }] := by
      simp [liveSlots, NO_PEER]
    rw [hlast, List.map_append, List.map_append, h.keys]
    simp [slotKey, peerKey]
  · intro pr hpr
    rw [accept_peers] at hpr
    rw [accept_nextPeerId]
    rcases List.mem_append.mp hpr with hm | hm
    · exact Nat.lt_succ_of_lt (h.fresh pr hm)
    · simp only [List.mem_singleton] at hm
      subst hm
      exact Nat.lt_succ_self _
  · rw [accept_peers, List.map_append]
    apply List.Nodup.append h.nodup (by simp)
    intro a ha hb
    simp only [List.map_cons, List.map_nil, List.mem_singleton] at hb
    subst hb
    obtain ⟨pr, hpr, hpreq⟩ := List.mem_map.mp ha
    have hlt := h.fresh pr hpr
    rw [hpreq] at hlt
    exact Nat.lt_irrefl _ hlt

theorem nodup_filter_map_peerid (P : List Peer) (h : (P.map Peer.peerid).Nodup)
    (f : Peer → Bool) : ((P.filter f).map Peer.peerid).Nodup := by
  apply List.Nodup.sublist _ h
  exact List.Sublist.map Peer.peerid (List.filter_sublist P)

theorem slotInv_removePeerCore (pm : PeerManager) (pr : Peer)
    (hmem : pr ∈ pm.peers) (h : SlotInv pm) : SlotInv (pm.removePeerCore pr) := by
  obtain ⟨hc, hsum, htomb, hp0, hp1, hk, _⟩ :=
    removeSlot_spec pr.peerid pr.proof.score pm.slots pm.peers 0 pr
      h.contig h.keys h.nodup hmem rfl rfl
  refine ⟨?_, ?_, ?_, ?_, ?_, ?_⟩
  · exact hc
  · show (if (removeSlot pr.peerid pm.slots).2.2 then
        lastStop (removeSlot pr.peerid pm.slots).1 else pm.slotCount)
        = sumWidths (removeSlot pr.peerid pm.slots).1
    by_cases hpop : (removeSlot pr.peerid pm.slots).2.2 = true
    · rw [if_pos hpop]
      exact contigFrom_zero_lastStop _ hc
    · rw [if_neg hpop, h.count]
      have := hsum
      rw [if_neg hpop] at this
      omega
  · show pm.fragmentation + (removeSlot pr.peerid pm.slots).2.1
        = tombWidths (removeSlot pr.peerid pm.slots).1
    rw [htomb, h.frag]
  · exact hk
  · intro q hq
    show q.peerid < pm.nextPeerId
    exact h.fresh q (List.mem_of_mem_filter hq)
  · exact nodup_filter_map_peerid pm.peers h.nodup _

theorem slotInv_demoteToConflicting (pm : PeerManager) (pr : Peer)
    (hmem : pr ∈ pm.peers) (h : SlotInv pm) :
    SlotInv (pm.demoteToConflicting pr) :=
  slotInv_of_eq _ _ (slotInv_removePeerCore pm pr hmem h) rfl rfl rfl rfl rfl

theorem slotInv_demoteToOrphan (pm : PeerManager) (pr : Peer)
    (hmem : pr ∈ pm.peers) (h : SlotInv pm) :
    SlotInv (pm.demoteToOrphan pr) :=
  slotInv_of_eq _ _ (slotInv_removePeerCore pm pr hmem h) rfl rfl rfl rfl rfl

theorem removePeerCore_peers (pm : PeerManager) (pr : Peer) :
    (pm.removePeerCore pr).peers
      = pm.peers.filter (fun q => !(q.peerid == pr.peerid)) := rfl

theorem demoteToConflicting_peers (pm : PeerManager) (pr : Peer) :
    (pm.demoteToConflicting pr).peers
      = pm.peers.filter (fun q => !(q.peerid == pr.peerid)) := rfl

theorem demoteToOrphan_peers (pm : PeerManager) (pr : Peer) :
    (pm.demoteToOrphan pr).peers
      = pm.peers.filter (fun q => !(q.peerid == pr.peerid)) := rfl

/-- Invariant preservation for a fold of demotions over a list of distinct
current peers. -/
theorem slotInv_demoteAll (L : List Peer) :
    ∀ pm : PeerManager, SlotInv pm →
    (∀ q ∈ L, q ∈ pm.peers) → (L.map Peer.peerid).Nodup →
    SlotInv (L.foldl PeerManager.demoteToConflicting pm) := by
  induction L with
  | nil => intro pm h _ _; exact h
  | cons a L ih =>
    intro pm h hmem hnd
    simp only [List.foldl_cons]
    apply ih
    · exact slotInv_demoteToConflicting pm a (hmem a (by simp)) h
    · intro q hq
      rw [demoteToConflicting_peers]
      rw [List.mem_filter]
      refine ⟨hmem q (by simp [hq]), ?_⟩
      simp only [List.map_cons, List.nodup_cons] at hnd
      simp only [Bool.not_eq_true', beq_eq_false_iff_ne, ne_eq]
      intro hcontra
      apply hnd.1
      rw [← hcontra]
      exact List.mem_map_of_mem Peer.peerid hq
    · simp only [List.map_cons, List.nodup_cons] at hnd
      exact hnd.2

theorem peerKey_npct_map (P : List Peer) (f : Peer → Peer)
    (hid : ∀ q, (f q).peerid = q.peerid) (hpf : ∀ q, (f q).proof = q.proof) :
    (P.map f).map peerKey = P.map peerKey
    ∧ (P.map f).map Peer.peerid = P.map Peer.peerid := by
  constructor
  · rw [List.map_map]
    apply List.map_congr_left
    intro q _
    simp only [Function.comp_apply, peerKey, hid, hpf]
  · rw [List.map_map]
    apply List.map_congr_left
    intro q _
    simp only [Function.comp_apply, hid]

theorem slotInv_peers_npct (pm : PeerManager) (X : List Proof) (f : Peer → Peer)
    (hid : ∀ q, (f q).peerid = q.peerid) (hpf : ∀ q, (f q).proof = q.proof)
    (h : SlotInv pm) :
    SlotInv { pm with peers := pm.peers.map f, conflictingPool := X } := by
  obtain ⟨hkeys, hids⟩ := peerKey_npct_map pm.peers f hid hpf
  refine ⟨h.contig, h.count, h.frag, ?_, ?_, ?_⟩
  · show (liveSlots pm.slots).map slotKey = (pm.peers.map f).map peerKey
    rw [hkeys]
    exact h.keys
  · intro pr hpr
    show pr.peerid < pm.nextPeerId
    obtain ⟨q, hq, hfq⟩ := List.mem_map.mp hpr
    rw [← hfq, hid]
    exact h.fresh q hq
  · show ((pm.peers.map f).map Peer.peerid).Nodup
    rw [hids]
    exact h.nodup

theorem slotInv_handleCollisions (pm : PeerManager) (now cooldown : Nat)
    (repl : Bool) (p : Proof) (mode : RegistrationMode) (h : SlotInv pm) :
    SlotInv (pm.handleCollisions now cooldown repl p mode).1 := by
  have hdem : SlotInv ((pm.peers.filter (fun pr => collidesB p pr.proof)).foldl
      PeerManager.demoteToConflicting pm) :=
    slotInv_demoteAll _ pm h (fun q hq => List.mem_of_mem_filter hq)
      (nodup_filter_map_peerid _ h.nodup _)
  unfold PeerManager.handleCollisions
  split
  · exact slotInv_accept _ _ _ h
  · split
    · exact slotInv_accept _ _ _ hdem
    · split
      · exact h
      · split
        · exact slotInv_accept _ _ _ hdem
        · split
          · exact slotInv_peers_npct pm _ _
              (fun q => by by_cases hc : collidesB p q.proof <;> simp [hc])
              (fun q => by by_cases hc : collidesB p q.proof <;> simp [hc]) h
          · exact h

theorem slotInv_registerProof (pm : PeerManager) (cv : CoinView)
    (now cooldown : Nat) (repl : Bool) (p : Proof) (mode : RegistrationMode)
    (h : SlotInv pm) :
    SlotInv (pm.registerProof cv now cooldown repl p mode).1 := by
  unfold PeerManager.registerProof
  have hpools : SlotInv (pm.pullFromPools p.proofId) :=
    slotInv_of_eq _ _ h rfl rfl rfl rfl rfl
  split
  · exact h
  · split
    · -- DEFAULT mode
      split
      · exact h
      · split
        · exact slotInv_of_eq _ _ h rfl rfl rfl rfl rfl
        · exact slotInv_of_eq _ _ h rfl rfl rfl rfl rfl
        · exact slotInv_handleCollisions _ _ _ _ _ _ h
    · -- FORCE_ACCEPT mode
      split
      · exact slotInv_of_eq _ _ hpools rfl rfl rfl rfl rfl
      · exact slotInv_of_eq _ _ hpools rfl rfl rfl rfl rfl
      · exact slotInv_handleCollisions _ _ _ _ _ _ hpools

theorem slotInv_removePeer (pm : PeerManager) (pid : Nat) (h : SlotInv pm) :
    SlotInv (pm.removePeer pid).1 := by
  unfold PeerManager.removePeer
  split
  · next pr heq =>
    exact slotInv_removePeerCore pm pr (List.mem_of_find?_eq_some heq) h
  · exact h

theorem contigFrom_rebase (l : List Slot) : ∀ x, contigFrom x (rebase x l) := by
  induction l with
  | nil => intro x; trivial
  | cons a r ih =>
    intro x
    exact ⟨rfl, ih (x + a.score)⟩

theorem map_slotKey_rebase (l : List Slot) :
    ∀ x, (rebase x l).map slotKey = l.map slotKey := by
  induction l with
  | nil => intro x; rfl
  | cons a r ih =>
    intro x
    simp only [rebase, List.map_cons, ih, slotKey]

theorem sumWidths_rebase (l : List Slot) :
    ∀ x, sumWidths (rebase x l) = sumWidths l := by
  induction l with
  | nil => intro x; rfl
  | cons a r ih =>
    intro x
    simp only [rebase, sumWidths_cons, ih]

theorem mem_rebase_peerid (l : List Slot) :
    ∀ x sl, sl ∈ rebase x l → ∃ a ∈ l, sl.peerid = a.peerid := by
  induction l with
  | nil => intro x sl h; cases h
  | cons a r ih =>
    intro x sl h
    rcases List.mem_cons.mp h with h1 | h1
    · exact ⟨a, by simp, by rw [h1]⟩
    · obtain ⟨b, hb, hbeq⟩ := ih (x + a.score) sl h1
      exact ⟨b, by simp [hb], hbeq⟩

theorem liveSlots_rebase_all_live (l : List Slot)
    (hl : ∀ sl ∈ l, (sl.peerid == NO_PEER) = false) :
    ∀ x, liveSlots (rebase x l) = rebase x l := by
  intro x
  apply List.filter_eq_self.mpr
  intro sl hsl
  obtain ⟨a, ha, haeq⟩ := mem_rebase_peerid l x sl hsl
  simp only [haeq]
  simp [hl a ha]

theorem tombWidths_rebase_all_live (l : List Slot)
    (hl : ∀ sl ∈ l, (sl.peerid == NO_PEER) = false) :
    ∀ x, tombWidths (rebase x l) = 0 := by
  intro x
  unfold tombWidths
  have : (rebase x l).filter (fun s => s.peerid == NO_PEER) = [] := by
    rw [List.filter_eq_nil]
    intro sl hsl
    obtain ⟨a, ha, haeq⟩ := mem_rebase_peerid l x sl hsl
    simp only [haeq]
    simp [hl a ha]
  rw [this]
  rfl

theorem liveSlots_mem_live (l : List Slot) :
    ∀ sl ∈ liveSlots l, (sl.peerid == NO_PEER) = false := by
  intro sl hsl
  have := List.mem_filter.mp hsl
  simpa using this.2

theorem slotInv_compact (pm : PeerManager) (h : SlotInv pm) :
    SlotInv pm.compact.1 := by
  refine ⟨?_, ?_, ?_, ?_, h.fresh, h.nodup⟩
  · exact contigFrom_rebase _ 0
  · show sumWidths (liveSlots pm.slots) = sumWidths (rebase 0 (liveSlots pm.slots))
    rw [sumWidths_rebase]
  · show (0 : Nat) = tombWidths (rebase 0 (liveSlots pm.slots))
    rw [tombWidths_rebase_all_live _ (liveSlots_mem_live pm.slots)]
  · show (liveSlots (rebase 0 (liveSlots pm.slots))).map slotKey = pm.peers.map peerKey
    rw [liveSlots_rebase_all_live _ (liveSlots_mem_live pm.slots),
      map_slotKey_rebase]
    exact h.keys

theorem slotInv_apply (pm : PeerManager) (op : SROp) (h : SlotInv pm) :
    SlotInv (SROp.apply pm op) := by
  cases op with
  | reg cv now cooldown repl p mode =>
    exact slotInv_registerProof pm cv now cooldown repl p mode h
  | rem pid => exact slotInv_removePeer pm pid h
  | cmp => exact slotInv_compact pm h

theorem slotInv_foldl (ops : List SROp) :
    ∀ pm, SlotInv pm → SlotInv (ops.foldl SROp.apply pm) := by
  induction ops with
  | nil => intro pm h; exact h
  | cons op ops ih =>
    intro pm h
    exact ih _ (slotInv_apply pm op h)

theorem slotInv_runOps (ops : List SROp) : SlotInv (runOps ops) :=
  slotInv_foldl ops emptyPeerManager slotInv_empty

theorem filter_not_isEmpty_of_mem {α : Type} (l : List α) (f : α → Bool)
    (x : α) (hx : x ∈ l) (hfx : f x = true) : (l.filter f).isEmpty = false := by
  have hmem : x ∈ l.filter f := List.mem_filter.mpr ⟨hx, hfx⟩
  cases hfilter : l.filter f with
  | nil =>
    rw [hfilter] at hmem
    cases hmem
  | cons a t => rfl

theorem registerProof_default_ok (pm : PeerManager) (cv : CoinView)
    (now cooldown : Nat) (repl : Bool) (p : Proof)
    (h1 : pm.isBoundToPeerB p.proofId = false)
    (h2 : pm.isOrphanB p.proofId = false)
    (h3 : pm.isInConflictingPoolB p.proofId = false)
    (h4 : utxoCheck cv p.stakes = .ok) :
    pm.registerProof cv now cooldown repl p .DEFAULT
      = pm.handleCollisions now cooldown repl p .DEFAULT := by
  simp [PeerManager.registerProof, h1, h2, h3, h4]

theorem registerProof_default_orphan (pm : PeerManager) (cv : CoinView)
    (now cooldown : Nat) (repl : Bool) (p : Proof)
    (h1 : pm.isBoundToPeerB p.proofId = false)
    (h2 : pm.isOrphanB p.proofId = false)
    (h3 : pm.isInConflictingPoolB p.proofId = false)
    (h4 : utxoCheck cv p.stakes ≠ .ok) :
    pm.registerProof cv now cooldown repl p .DEFAULT
      = (pm.toOrphanPool p,
         if utxoCheck cv p.stakes = .missing then .MISSING_UTXO else .HEIGHT_MISMATCH) := by
  cases hchk : utxoCheck cv p.stakes with
  | ok => exact absurd hchk h4
  | missing => simp [PeerManager.registerProof, h1, h2, h3, hchk]
  | mismatch => simp [PeerManager.registerProof, h1, h2, h3, hchk]

theorem registerProof_force_ok (pm : PeerManager) (cv : CoinView)
    (now cooldown : Nat) (repl : Bool) (p : Proof)
    (h1 : pm.isBoundToPeerB p.proofId = false)
    (h4 : utxoCheck cv p.stakes = .ok) :
    pm.registerProof cv now cooldown repl p .FORCE_ACCEPT
      = (pm.pullFromPools p.proofId).handleCollisions now cooldown repl p
          .FORCE_ACCEPT := by
  simp [PeerManager.registerProof, h1, h4]

theorem handleCollisions_noColliders (pm : PeerManager) (now cooldown : Nat)
    (repl : Bool) (p : Proof) (mode : RegistrationMode)
    (h : (pm.peers.filter (fun pr => collidesB p pr.proof)).isEmpty = true) :
    pm.handleCollisions now cooldown repl p mode = (pm.accept p now, .SUCCESS) := by
  simp [PeerManager.handleCollisions, h]

theorem handleCollisions_force (pm : PeerManager) (now cooldown : Nat)
    (repl : Bool) (p : Proof)
    (h : (pm.peers.filter (fun pr => collidesB p pr.proof)).isEmpty = false) :
    pm.handleCollisions now cooldown repl p .FORCE_ACCEPT
      = (((pm.peers.filter (fun pr => collidesB p pr.proof)).foldl
          PeerManager.demoteToConflicting pm).accept p now, .SUCCESS) := by
  simp [PeerManager.handleCollisions, h]

theorem handleCollisions_cooldown (pm : PeerManager) (now cooldown : Nat)
    (repl : Bool) (p : Proof)
    (h : (pm.peers.filter (fun pr => collidesB p pr.proof)).isEmpty = false)
    (hcd : (pm.peers.filter (fun pr => collidesB p pr.proof)).any
        (fun pr => decide (now < pr.nextPossibleConflictTime + cooldown)) = true) :
    pm.handleCollisions now cooldown repl p .DEFAULT
      = (pm, .COOLDOWN_NOT_ELAPSED) := by
  simp [PeerManager.handleCollisions, h, hcd]

theorem handleCollisions_pool (pm : PeerManager) (now cooldown : Nat)
    (repl : Bool) (p : Proof)
    (h : (pm.peers.filter (fun pr => collidesB p pr.proof)).isEmpty = false)
    (hcd : (pm.peers.filter (fun pr => collidesB p pr.proof)).any
        (fun pr => decide (now < pr.nextPossibleConflictTime + cooldown)) = false)
    (hnr : (repl && (pm.peers.filter (fun pr => collidesB p pr.proof)).all
        (fun pr => conflictingProofComparator p pr.proof)) = false) :
    pm.handleCollisions now cooldown repl p .DEFAULT
      = (if (poolAdd p pm.conflictingPool).1 then
          ({ pm with
             conflictingPool := (poolAdd p pm.conflictingPool).2,
             peers := pm.peers.map (fun pr =>
               if collidesB p pr.proof then { pr with nextPossibleConflictTime := now }
               else pr) }, .CONFLICTING)
        else (pm, .REJECTED)) := by
  unfold PeerManager.handleCollisions
  rw [h, hcd, hnr]
  simp

theorem poolAdd_pos (p : Proof) (pool : List Proof)
    (h : ∀ q ∈ pool, collidesB p q = true → conflictingProofComparator p q = true) :
    poolAdd p pool = (true, p :: pool.filter (fun q => !collidesB p q)) := by
  unfold poolAdd
  rw [if_pos]
  rw [List.all_eq_true]
  intro q hq
  have := List.mem_filter.mp hq
  exact h q this.1 this.2

theorem poolAdd_neg (p : Proof) (pool : List Proof) (q : Proof) (hq : q ∈ pool)
    (hqc : collidesB p q = true) (hqw : conflictingProofComparator p q = false) :
    poolAdd p pool = (false, pool) := by
  unfold poolAdd
  rw [if_neg]
  intro hall
  rw [List.all_eq_true] at hall
  have := hall q (List.mem_filter.mpr ⟨hq, hqc⟩)
  rw [hqw] at this
  cases this

theorem pullFromPools_peers (pm : PeerManager) (prid : Nat) :
    (pm.pullFromPools prid).peers = pm.peers := rfl

theorem pullFromPools_conflictingPool (pm : PeerManager) (prid : Nat) :
    (pm.pullFromPools prid).conflictingPool
      = pm.conflictingPool.filter (fun q => !(q.proofId == prid)) := rfl

theorem removePeerCore_conflictingPool (pm : PeerManager) (pr : Peer) :
    (pm.removePeerCore pr).conflictingPool = pm.conflictingPool := rfl

theorem demoteToConflicting_conflictingPool (pm : PeerManager) (pr : Peer) :
    (pm.demoteToConflicting pr).conflictingPool
      = (poolAdd pr.proof pm.conflictingPool).2 := rfl

theorem accept_isBound (pm : PeerManager) (p : Proof) (now : Nat) :
    (pm.accept p now).isBoundToPeerB p.proofId = true := by
  unfold PeerManager.isBoundToPeerB
  rw [accept_peers, List.any_append]
  simp

/-- The peer table after a fold of demotions: exactly the peers whose id is
not among the demoted ones survive. -/
theorem demoteAll_peers (L : List Peer) :
    ∀ pm : PeerManager,
    (L.foldl PeerManager.demoteToConflicting pm).peers
      = pm.peers.filter (fun q => !(L.any (fun x => q.peerid == x.peerid))) := by
  induction L with
  | nil =>
    intro pm
    simp
  | cons a t ih =>
    intro pm
    rw [List.foldl_cons, ih (pm.demoteToConflicting a), demoteToConflicting_peers,
      List.filter_filter]
    apply List.filter_congr
    intro q _
    simp only [List.any_cons, Bool.not_or]
    rw [Bool.and_comm]

theorem find_nodeid_map (nodes : List Node) (g : Node → Node)
    (hg : ∀ n, (g n).nodeid = n.nodeid) (nid : Nat) :
    (nodes.map g).find? (fun n => n.nodeid == nid)
      = (nodes.find? (fun n => n.nodeid == nid)).map g := by
  induction nodes with
  | nil => rfl
  | cons a t ih =>
    rw [List.map_cons, List.find?_cons, List.find?_cons, hg a]
    cases hp : (a.nodeid == nid) with
    | true => rfl
    | false => exact ih

theorem find_nodeid_self (nodes : List Node)
    (hnd : (nodes.map Node.nodeid).Nodup) (n : Node) (hn : n ∈ nodes) :
    nodes.find? (fun m => m.nodeid == n.nodeid) = some n := by
  have hsome : (nodes.find? (fun m => m.nodeid == n.nodeid)).isSome := by
    rw [List.find?_isSome]
    exact ⟨n, hn, by simp⟩
  obtain ⟨q, hq⟩ := Option.isSome_iff_exists.mp hsome
  have hqmem := List.mem_of_find?_eq_some hq
  have hqpred := List.find?_some hq
  rw [beq_iff_eq] at hqpred
  rw [hq, List.inj_on_of_nodup_map hnd hqmem hn hqpred]

theorem bindNode_nodeid_pres (nid pid : Nat) :
    ∀ n : Node, ((fun n : Node =>
      if n.nodeid == nid then { n with peerid := some pid } else n) n).nodeid
      = n.nodeid := by
  intro n
  by_cases h : (n.nodeid == nid) = true <;> simp [h]

theorem bindNode_nodeids (nodes : List Node) (nid pid : Nat) :
    (bindNode nodes nid pid).map Node.nodeid
      = if nodes.any (fun n => n.nodeid == nid) then nodes.map Node.nodeid
        else nodes.map Node.nodeid ++ [nid] := by
  unfold bindNode
  by_cases hany : nodes.any (fun n => n.nodeid == nid) = true
  · rw [if_pos hany, if_pos hany, List.map_map]
    apply List.map_congr_left
    intro n _
    exact bindNode_nodeid_pres nid pid n
  · rw [if_neg hany, if_neg hany]
    simp

theorem bindNode_find_self (nodes : List Node) (nid pid : Nat) :
    ∃ t : Nat, (bindNode nodes nid pid).find? (fun m => m.nodeid == nid)
      = some (Node.mk nid (some pid) t)
      ∧ (∀ r, nodes.find? (fun m => m.nodeid == nid) = some r →
          t = r.nextRequestTime) := by
  unfold bindNode
  by_cases hany : nodes.any (fun n => n.nodeid == nid) = true
  · rw [if_pos hany]
    rw [find_nodeid_map nodes _ (bindNode_nodeid_pres nid pid) nid]
    obtain ⟨r, hr⟩ : ∃ r, nodes.find? (fun m => m.nodeid == nid) = some r := by
      rw [← Option.isSome_iff_exists, List.find?_isSome]
      rw [List.any_eq_true] at hany
      exact hany
    have hpred : r.nodeid = nid := by simpa using List.find?_some hr
    refine ⟨r.nextRequestTime, ?_, ?_⟩
    · rw [hr]
      show some (if r.nodeid == nid then { r with peerid := some pid } else r) = _
      rw [if_pos (by simp [hpred]), ← hpred]
    · intro r2 hr2
      rw [hr] at hr2
      injection hr2 with h2
      rw [h2]
  · rw [if_neg hany]
    have hnone : nodes.find? (fun m => m.nodeid == nid) = none := by
      rw [List.find?_eq_none]
      intro n hn hc
      apply hany
      rw [List.any_eq_true]
      exact ⟨n, hn, hc⟩
    refine ⟨0, ?_, ?_⟩
    · rw [List.find?_append, hnone]
      simp
    · intro r2 hr2
      rw [hnone] at hr2
      cases hr2

theorem bindNode_find_other (nodes : List Node) (nid pid nid' : Nat)
    (h : nid' ≠ nid) :
    (bindNode nodes nid pid).find? (fun m => m.nodeid == nid')
      = nodes.find? (fun m => m.nodeid == nid') := by
  unfold bindNode
  by_cases hany : nodes.any (fun n => n.nodeid == nid) = true
  · rw [if_pos hany, find_nodeid_map nodes _ (bindNode_nodeid_pres nid pid) nid']
    cases hr : nodes.find? (fun m => m.nodeid == nid') with
    | none => rfl
    | some r =>
      have hpred : r.nodeid = nid' := by simpa using List.find?_some hr
      show some (if r.nodeid == nid then { r with peerid := some pid } else r) = _
      rw [if_neg (by simp [hpred, h])]
  · rw [if_neg hany, List.find?_append]
    have h2 : List.find? (fun m : Node => m.nodeid == nid')
        [({ nodeid := nid, peerid := some pid, nextRequestTime := 0 } : Node)]
        = none := by
      simp [Ne.symm h]
    rw [h2]
    cases nodes.find? (fun m => m.nodeid == nid') <;> rfl

theorem bindNode_boundCount_aux (nid pid : Nat) :
    ∀ nodes : List Node, (nodes.map Node.nodeid).Nodup →
    (∀ n ∈ nodes, n.nodeid = nid → n.peerid = NO_PEER) →
    nodes.any (fun n => n.nodeid == nid) = true →
    ((nodes.map (fun n : Node =>
        if n.nodeid == nid then { n with peerid := some pid } else n)).filter
      (fun n => !(n.peerid == NO_PEER))).length
      = (nodes.filter (fun n => !(n.peerid == NO_PEER))).length + 1 := by
  intro nodes
  induction nodes with
  | nil => intro _ _ hany; cases hany
  | cons a t ih =>
    intro hnd hunb hany
    by_cases ha : (a.nodeid == nid) = true
    · have ha' : a.nodeid = nid := by rwa [beq_iff_eq] at ha
      have haunb : a.peerid = NO_PEER := hunb a (by simp) ha'
      have htid : ∀ n ∈ t, ¬((n.nodeid == nid) = true) := by
        intro n hn hc
        rw [beq_iff_eq] at hc
        simp only [List.map_cons, List.nodup_cons] at hnd
        apply hnd.1
        rw [ha', ← hc]
        exact List.mem_map_of_mem Node.nodeid hn
      have hmapt : t.map (fun n : Node =>
          if n.nodeid == nid then { n with peerid := some pid } else n) = t := by
        calc t.map (fun n : Node =>
              if n.nodeid == nid then { n with peerid := some pid } else n)
            = t.map id := List.map_congr_left (fun n hn => by
                rw [if_neg (htid n hn)]; rfl)
          _ = t := List.map_id t
      rw [List.map_cons, if_pos ha, hmapt, List.filter_cons, List.filter_cons]
      rw [haunb]
      simp [NO_PEER]
    · have ha2 : (a.nodeid == nid) = false := by
        rw [Bool.eq_false_iff]; exact ha
      have hanyt : t.any (fun n => n.nodeid == nid) = true := by
        rw [List.any_cons, ha2] at hany
        simpa using hany
      have hndt : (t.map Node.nodeid).Nodup := by
        simp only [List.map_cons, List.nodup_cons] at hnd
        exact hnd.2
      have iht := ih hndt (fun n hn h => hunb n (by simp [hn]) h) hanyt
      rw [List.map_cons, if_neg ha, List.filter_cons, List.filter_cons]
      by_cases hpa : (!(a.peerid == NO_PEER)) = true
      · simp only [hpa, if_true, List.length_cons]
        omega
      · rw [if_neg hpa, if_neg hpa]
        omega

theorem bindNode_boundCount (nodes : List Node) (nid pid : Nat)
    (hnd : (nodes.map Node.nodeid).Nodup)
    (hunb : ∀ n ∈ nodes, n.nodeid = nid → n.peerid = NO_PEER) :
    ((bindNode nodes nid pid).filter (fun n => !(n.peerid == NO_PEER))).length
      = (nodes.filter (fun n => !(n.peerid == NO_PEER))).length + 1 := by
  unfold bindNode
  by_cases hany : nodes.any (fun n => n.nodeid == nid) = true
  · rw [if_pos hany]
    exact bindNode_boundCount_aux nid pid nodes hnd hunb hany
  · rw [if_neg hany]
    simp [List.filter_append, NO_PEER]

theorem foldBind_find_untouched (pid nid : Nat) :
    ∀ (L : List PendingNode) (nodes : List Node), (∀ e ∈ L, e.nodeid ≠ nid) →
    (L.foldl (fun ns e => bindNode ns e.nodeid pid) nodes).find?
        (fun m => m.nodeid == nid)
      = nodes.find? (fun m => m.nodeid == nid) := by
  intro L
  induction L with
  | nil => intro nodes _; rfl
  | cons a t ih =>
    intro nodes hne
    rw [List.foldl_cons,
      ih (bindNode nodes a.nodeid pid) (fun e he => hne e (List.mem_cons_of_mem a he)),
      bindNode_find_other nodes a.nodeid pid nid
        (Ne.symm (hne a (List.mem_cons_self a t)))]

theorem foldBind_find_mem (pid : Nat) :
    ∀ (L : List PendingNode) (nodes : List Node) (e : PendingNode), e ∈ L →
    (L.map PendingNode.nodeid).Nodup →
    ∃ t, (L.foldl (fun ns x => bindNode ns x.nodeid pid) nodes).find?
        (fun m => m.nodeid == e.nodeid) = some (Node.mk e.nodeid (some pid) t) := by
  intro L
  induction L with
  | nil => intro _ e he; cases he
  | cons a t ih =>
    intro nodes e he hnd
    rw [List.foldl_cons]
    rcases List.mem_cons.mp he with heq | hmem
    · subst heq
      obtain ⟨tt, htt, _⟩ := bindNode_find_self nodes e.nodeid pid
      have hne : ∀ x ∈ t, x.nodeid ≠ e.nodeid := by
        intro x hx hc
        simp only [List.map_cons, List.nodup_cons] at hnd
        apply hnd.1
        rw [← hc]
        exact List.mem_map_of_mem PendingNode.nodeid hx
      rw [foldBind_find_untouched pid e.nodeid t (bindNode nodes e.nodeid pid) hne]
      exact ⟨tt, htt⟩
    · have hndt : (t.map PendingNode.nodeid).Nodup := by
        simp only [List.map_cons, List.nodup_cons] at hnd
        exact hnd.2
      exact ih (bindNode nodes a.nodeid pid) e hmem hndt

theorem bindNode_nodeids_nodup (nodes : List Node) (nid pid : Nat)
    (hnd : (nodes.map Node.nodeid).Nodup) :
    ((bindNode nodes nid pid).map Node.nodeid).Nodup := by
  rw [bindNode_nodeids]
  by_cases hany : nodes.any (fun n => n.nodeid == nid) = true
  · rw [if_pos hany]
    exact hnd
  · rw [if_neg hany]
    have hnm : nid ∉ nodes.map Node.nodeid := by
      intro hmem
      obtain ⟨n, hn, hn2⟩ := List.mem_map.mp hmem
      apply hany
      rw [List.any_eq_true]
      exact ⟨n, hn, by simp [hn2]⟩
    simp [List.nodup_append, hnd, hnm]

theorem bindNode_mem_other (nodes : List Node) (nid pid : Nat) (m : Node)
    (hm : m ∈ bindNode nodes nid pid) (hne : m.nodeid ≠ nid) : m ∈ nodes := by
  unfold bindNode at hm
  by_cases hany : nodes.any (fun n => n.nodeid == nid) = true
  · rw [if_pos hany] at hm
    obtain ⟨n, hn, hgn⟩ := List.mem_map.mp hm
    by_cases h : (n.nodeid == nid) = true
    · rw [if_pos h] at hgn
      exfalso
      apply hne
      rw [← hgn]
      show n.nodeid = nid
      rwa [beq_iff_eq] at h
    · rw [if_neg h] at hgn
      exact hgn ▸ hn
  · rw [if_neg hany] at hm
    rcases List.mem_append.mp hm with h1 | h2
    · exact h1
    · exfalso
      rw [List.mem_singleton] at h2
      exact hne (by rw [h2])

theorem foldBind_boundCount (pid : Nat) :
    ∀ (L : List PendingNode) (nodes : List Node),
    (L.map PendingNode.nodeid).Nodup →
    (nodes.map Node.nodeid).Nodup →
    (∀ e ∈ L, ∀ n ∈ nodes, n.nodeid = e.nodeid → n.peerid = NO_PEER) →
    ((L.foldl (fun ns x => bindNode ns x.nodeid pid) nodes).filter
        (fun n => !(n.peerid == NO_PEER))).length
      = (nodes.filter (fun n => !(n.peerid == NO_PEER))).length + L.length := by
  intro L
  induction L with
  | nil => intro nodes _ _ _; rfl
  | cons a t ih =>
    intro nodes hndL hndN hunb
    rw [List.foldl_cons]
    have h1 := bindNode_boundCount nodes a.nodeid pid hndN
      (fun n hn h => hunb a (by simp) n hn h)
    have hndN2 := bindNode_nodeids_nodup nodes a.nodeid pid hndN
    have hndLt : (t.map PendingNode.nodeid).Nodup := by
      simp only [List.map_cons, List.nodup_cons] at hndL
      exact hndL.2
    have hunb2 : ∀ e ∈ t, ∀ n ∈ bindNode nodes a.nodeid pid,
        n.nodeid = e.nodeid → n.peerid = NO_PEER := by
      intro e he n hn h
      have hne : n.nodeid ≠ a.nodeid := by
        rw [h]
        intro hc
        simp only [List.map_cons, List.nodup_cons] at hndL
        apply hndL.1
        rw [← hc]
        exact List.mem_map_of_mem PendingNode.nodeid he
      exact hunb e (by simp [he]) n
        (bindNode_mem_other nodes a.nodeid pid n hn hne) h
    rw [ih (bindNode nodes a.nodeid pid) hndLt hndN2 hunb2, h1, List.length_cons]
    omega

theorem removePeerCore_nodes (pm : PeerManager) (pr : Peer) :
    (pm.removePeerCore pr).nodes
      = pm.nodes.map (fun n =>
          if n.peerid == some pr.peerid then { n with peerid := NO_PEER } else n) := rfl

theorem removePeerCore_pendingNodes (pm : PeerManager) (pr : Peer) :
    (pm.removePeerCore pr).pendingNodes
      = (pm.nodes.filter (fun n => n.peerid == some pr.peerid)).map
          (fun n => PendingNode.mk pr.proof.proofId n.nodeid)
        ++ pm.pendingNodes := rfl

theorem removePeer_found (pm : PeerManager) (pid : Nat) (pr : Peer)
    (hf : pm.peers.find? (fun q => q.peerid == pid) = some pr) :
    pm.removePeer pid = (pm.removePeerCore pr, true) := by
  unfold PeerManager.removePeer
  rw [hf]

theorem removePeer_notFound (pm : PeerManager) (pid : Nat)
    (hf : pm.peers.find? (fun q => q.peerid == pid) = none) :
    pm.removePeer pid = (pm, false) := by
  unfold PeerManager.removePeer
  rw [hf]

/-! ### Claim theorems -/

/-- Claim C1: for two proofs sharing a stake outpoint, the conflicting-proof
comparator is lexicographic and stops at the first differing key — higher
sequence wins only when the masters match (with different masters the
sequence key is skipped), then higher staked amount, then lower stake
count, then smaller proof id — and for distinct proofs exactly one of
`better(A,B)` and `better(B,A)` holds. -/
theorem claim_C1_conflicting_proof_comparator (A B : Proof)
    (hshare : collidesB A B = true) (hid : A.proofId ≠ B.proofId) :
    (A.master = B.master → A.sequence ≠ B.sequence →
      conflictingProofComparator A B = decide (B.sequence < A.sequence))
    ∧ ((A.master ≠ B.master ∨ A.sequence = B.sequence) →
        A.stakedAmount ≠ B.stakedAmount →
        conflictingProofComparator A B = decide (B.stakedAmount < A.stakedAmount))
    ∧ ((A.master ≠ B.master ∨ A.sequence = B.sequence) →
        A.stakedAmount = B.stakedAmount → A.stakeCount ≠ B.stakeCount →
        conflictingProofComparator A B = decide (A.stakeCount < B.stakeCount))
    ∧ ((A.master ≠ B.master ∨ A.sequence = B.sequence) →
        A.stakedAmount = B.stakedAmount → A.stakeCount = B.stakeCount →
        conflictingProofComparator A B = decide (A.proofId < B.proofId))
    ∧ conflictingProofComparator A B = !conflictingProofComparator B A := by
  refine ⟨?_, ?_, ?_, ?_, ?_⟩
  · intro hm hs
    simp [conflictingProofComparator, hm, hs]
  · intro hskip hamt
    have hng : ¬(A.master = B.master ∧ A.sequence ≠ B.sequence) := by tauto
    simp [conflictingProofComparator, hng, hamt]
  · intro hskip hamt hcnt
    have hng : ¬(A.master = B.master ∧ A.sequence ≠ B.sequence) := by tauto
    simp [conflictingProofComparator, hng, hamt, hcnt]
  · intro hskip hamt hcnt
    have hng : ¬(A.master = B.master ∧ A.sequence ≠ B.sequence) := by tauto
    simp [conflictingProofComparator, hng, hamt, hcnt]
  · unfold conflictingProofComparator
    split_ifs with h1 h2 h3 h4 h5 h6 h7 h8 h9 <;>
      first
        | (exact decide_lt_flip (by tauto))
        | (exact decide_lt_flip hid)
        | (exact absurd (And.intro h2.1.symm (Ne.symm h2.2)) h1)
        | (exact absurd (And.intro (by tauto : A.master = B.master)
            (by tauto : A.sequence ≠ B.sequence)) h1)
        | tauto

/-- Claim C2: `select_peer` over a sorted, non-overlapping slot vector
returns `NO_PEER` on undershoot, on overshoot (`s ≥ total`), and on draws
falling in a gap or tombstone, and otherwise returns the peer id of the
unique slot whose half-open window contains the draw (a boundary draw
belongs to the window that starts there). -/
theorem claim_C2_select_peer (slots : List Slot) (s total : Nat)
    (hsorted : slots.Pairwise (fun a b => a.stop ≤ b.start)) :
    (total ≤ s → selectPeerImpl slots s total = NO_PEER)
    ∧ (∀ hd rest, slots = hd :: rest → s < hd.start →
        selectPeerImpl slots s total = NO_PEER)
    ∧ ((∀ sl ∈ slots, sl.containsB s = false) →
        selectPeerImpl slots s total = NO_PEER)
    ∧ (∀ sl ∈ slots, sl.containsB s = true → sl.peerid = NO_PEER →
        selectPeerImpl slots s total = NO_PEER)
    ∧ (∀ sl ∈ slots, sl.containsB s = true → s < total →
        selectPeerImpl slots s total = sl.peerid) := by
  have hfound : ∀ sl ∈ slots, sl.containsB s = true → s < total →
      selectPeerImpl slots s total = sl.peerid := by
    intro sl hmem hc hlt
    unfold selectPeerImpl
    rw [if_neg (Nat.not_le.mpr hlt), selectPeer_found slots hsorted sl hmem hc]
  refine ⟨?_, ?_, ?_, ?_, hfound⟩
  · intro hle
    simp [selectPeerImpl, hle]
  · intro hd rest heq hlt
    rcases Nat.lt_or_ge s total with hst | hst
    · unfold selectPeerImpl
      rw [if_neg (Nat.not_le.mpr hst)]
      have hnone : slots.find? (fun x => x.containsB s) = none := by
        rw [List.find?_eq_none]
        intro sl hmem
        subst heq
        simp only [Slot.containsB, Bool.and_eq_true, decide_eq_true_eq, not_and]
        intro hstart
        rcases List.mem_cons.mp hmem with rfl | hmt
        · exact absurd hstart (Nat.not_le.mpr hlt)
        · have hdisj : hd.stop ≤ sl.start := (List.pairwise_cons.mp hsorted).1 sl hmt
          have : hd.start ≤ s :=
            Nat.le_trans (Nat.le_trans (Nat.le_add_right _ _) hdisj) hstart
          exact absurd this (Nat.not_le.mpr hlt)
      rw [hnone]
    · simp [selectPeerImpl, hst]
  · intro hnone
    rcases Nat.lt_or_ge s total with hst | hst
    · unfold selectPeerImpl
      rw [if_neg (Nat.not_le.mpr hst)]
      have : slots.find? (fun x => x.containsB s) = none := by
        rw [List.find?_eq_none]
        intro sl hmem
        simp [hnone sl hmem]
      rw [this]
    · simp [selectPeerImpl, hst]
  · intro sl hmem hc htomb
    rcases Nat.lt_or_ge s total with hst | hst
    · rw [hfound sl hmem hc hst, htomb]
    · simp [selectPeerImpl, hst]

/-- Claim C3: after every sequence of peer additions, removals and
compactions, fragmentation plus the sum of live slot widths equals the
total slot width; removing a peer whose slot is not last keeps the total
and adds the peer's score to fragmentation; removing the peer owning the
last slot shrinks the total by its score without touching fragmentation;
and `compact` returns exactly the reclaimed fragmentation, zeroes it, and
leaves the total equal to the sum of the live peers' scores. -/
theorem claim_C3_fragmentation_accounting (ops : List SROp) :
    (runOps ops).fragmentation + sumWidths (liveSlots (runOps ops).slots)
      = (runOps ops).slotCount
    ∧ (∀ pr ∈ (runOps ops).peers,
        ((runOps ops).isLastSlotB pr.peerid = false →
          ((runOps ops).removePeer pr.peerid).1.slotCount = (runOps ops).slotCount
          ∧ ((runOps ops).removePeer pr.peerid).1.fragmentation
              = (runOps ops).fragmentation + pr.proof.score)
        ∧ ((runOps ops).isLastSlotB pr.peerid = true →
          ((runOps ops).removePeer pr.peerid).1.slotCount
              = (runOps ops).slotCount - pr.proof.score
          ∧ ((runOps ops).removePeer pr.peerid).1.fragmentation
              = (runOps ops).fragmentation))
    ∧ ((runOps ops).compact.2 = (runOps ops).fragmentation
        ∧ (runOps ops).compact.1.fragmentation = 0
        ∧ (runOps ops).compact.1.slotCount
            = ((runOps ops).peers.map (fun pr => pr.proof.score)).sum) := by
  have h := slotInv_runOps ops
  have hsplit := sumWidths_split (runOps ops).slots
  refine ⟨?_, ?_, ?_, rfl, ?_⟩
  · rw [h.count, h.frag]
    omega
  · intro pr hpr
    have hfind : (runOps ops).peers.find? (fun q => q.peerid == pr.peerid)
        = some pr := by
      have hsome : ((runOps ops).peers.find? (fun q => q.peerid == pr.peerid)).isSome := by
        rw [List.find?_isSome]
        exact ⟨pr, hpr, by simp⟩
      obtain ⟨q, hq⟩ := Option.isSome_iff_exists.mp hsome
      have hqmem := List.mem_of_find?_eq_some hq
      have hqpred := List.find?_some hq
      simp only [beq_iff_eq] at hqpred
      have : q = pr :=
        List.inj_on_of_nodup_map h.nodup hqmem hpr hqpred
      rw [hq, this]
    have hrp : ((runOps ops).removePeer pr.peerid)
        = ((runOps ops).removePeerCore pr, true) := by
      unfold PeerManager.removePeer
      rw [hfind]
    obtain ⟨hc, hsum, htomb, hp0, hp1, _, hpop⟩ :=
      removeSlot_spec pr.peerid pr.proof.score (runOps ops).slots
        (runOps ops).peers 0 pr h.contig h.keys h.nodup hpr rfl rfl
    have hlastB : (removeSlot pr.peerid (runOps ops).slots).2.2
        = (runOps ops).isLastSlotB pr.peerid := hpop
    constructor
    · intro hnl
      rw [hrp]
      have hpopf : (removeSlot pr.peerid (runOps ops).slots).2.2 = false := by
        rw [hlastB, hnl]
      constructor
      · show (if (removeSlot pr.peerid (runOps ops).slots).2.2 then
            lastStop (removeSlot pr.peerid (runOps ops).slots).1
          else (runOps ops).slotCount) = (runOps ops).slotCount
        rw [hpopf]
        simp
      · show (runOps ops).fragmentation
            + (removeSlot pr.peerid (runOps ops).slots).2.1
          = (runOps ops).fragmentation + pr.proof.score
        rw [hp1 hpopf]
    · intro hl
      rw [hrp]
      have hpopt : (removeSlot pr.peerid (runOps ops).slots).2.2 = true := by
        rw [hlastB, hl]
      constructor
      · show (if (removeSlot pr.peerid (runOps ops).slots).2.2 then
            lastStop (removeSlot pr.peerid (runOps ops).slots).1
          else (runOps ops).slotCount)
          = (runOps ops).slotCount - pr.proof.score
        rw [hpopt]
        simp only [if_pos]
        rw [contigFrom_zero_lastStop _ hc, h.count]
        rw [hpopt, if_pos rfl] at hsum
        omega
      · show (runOps ops).fragmentation
            + (removeSlot pr.peerid (runOps ops).slots).2.1
          = (runOps ops).fragmentation
        rw [hp0 hpopt]
        omega
  · show (runOps ops).slotCount - sumWidths (liveSlots (runOps ops).slots)
      = (runOps ops).fragmentation
    rw [h.count, h.frag]
    omega
  · show sumWidths (liveSlots (runOps ops).slots)
      = ((runOps ops).peers.map (fun pr => pr.proof.score)).sum
    have hkeys := congrArg (fun L => (L.map Prod.snd).sum) h.keys
    simpa [List.map_map, Function.comp, slotKey, peerKey, sumWidths] using hkeys

/-- Witness for C3: a concrete run registering two peers, with the
non-last removal, the last removal, and compaction all evaluated. -/
theorem claim_C3_witness :
    runOps [SROp.reg [(0, 100)] 0 0 false (Proof.mk 1 1 0 [Stake.mk 0 7 100 false]) .DEFAULT,
            SROp.reg [(0, 100), (1, 100)] 0 0 false
              (Proof.mk 2 2 0 [Stake.mk 1 5 100 false]) .DEFAULT]
      = runOps [SROp.reg [(0, 100)] 0 0 false (Proof.mk 1 1 0 [Stake.mk 0 7 100 false]) .DEFAULT,
            SROp.reg [(0, 100), (1, 100)] 0 0 false
              (Proof.mk 2 2 0 [Stake.mk 1 5 100 false]) .DEFAULT]
    ∧ ((runOps [SROp.reg [(0, 100)] 0 0 false (Proof.mk 1 1 0 [Stake.mk 0 7 100 false]) .DEFAULT,
            SROp.reg [(0, 100), (1, 100)] 0 0 false
              (Proof.mk 2 2 0 [Stake.mk 1 5 100 false]) .DEFAULT]).removePeer 0).1.fragmentation = 7
    ∧ ((runOps [SROp.reg [(0, 100)] 0 0 false (Proof.mk 1 1 0 [Stake.mk 0 7 100 false]) .DEFAULT,
            SROp.reg [(0, 100), (1, 100)] 0 0 false
              (Proof.mk 2 2 0 [Stake.mk 1 5 100 false]) .DEFAULT]).removePeer 1).1.slotCount = 7 := by
  refine ⟨rfl, ?_, ?_⟩
  · have h := claim_C3_fragmentation_accounting
      [SROp.reg [(0, 100)] 0 0 false (Proof.mk 1 1 0 [Stake.mk 0 7 100 false]) .DEFAULT,
       SROp.reg [(0, 100), (1, 100)] 0 0 false
         (Proof.mk 2 2 0 [Stake.mk 1 5 100 false]) .DEFAULT]
    have h2 := (h.2.1 (Peer.mk 0 (Proof.mk 1 1 0 [Stake.mk 0 7 100 false]) 0)
      (by decide)).1 (by decide)
    rw [h2.2]
    decide
  · have h := claim_C3_fragmentation_accounting
      [SROp.reg [(0, 100)] 0 0 false (Proof.mk 1 1 0 [Stake.mk 0 7 100 false]) .DEFAULT,
       SROp.reg [(0, 100), (1, 100)] 0 0 false
         (Proof.mk 2 2 0 [Stake.mk 1 5 100 false]) .DEFAULT]
    have h2 := (h.2.1 (Peer.mk 1 (Proof.mk 2 2 0 [Stake.mk 1 5 100 false]) 0)
      (by decide)).2 (by decide)
    rw [h2.1]
    decide

theorem existsB_false_parts (pm : PeerManager) (prid : Nat)
    (h : pm.existsB prid = false) :
    pm.isBoundToPeerB prid = false ∧ pm.isOrphanB prid = false
    ∧ pm.isInConflictingPoolB prid = false := by
  unfold PeerManager.existsB at h
  simp only [Bool.or_eq_false_iff] at h
  exact ⟨h.1.1, h.1.2, h.2⟩

/-- Claim C4: a proof colliding with a live peer and registered in
`DEFAULT` mode before the cooldown has elapsed is refused with
`COOLDOWN_NOT_ELAPSED` and stored nowhere — the manager state is returned
unchanged — regardless of the comparator's verdict; once the cooldown has
elapsed for every collider, the same registration yields `CONFLICTING` and
the proof enters the conflicting pool. -/
theorem claim_C4_cooldown_gate (pm : PeerManager) (cv : CoinView)
    (now cooldown : Nat) (p : Proof)
    (hfresh : pm.existsB p.proofId = false)
    (hok : utxoCheck cv p.stakes = StakeStatus.ok)
    (hcoll : ∃ pr ∈ pm.peers, collidesB p pr.proof = true) :
    ((∃ pr ∈ pm.peers, collidesB p pr.proof = true
        ∧ now < pr.nextPossibleConflictTime + cooldown) →
      pm.registerProof cv now cooldown false p .DEFAULT
        = (pm, .COOLDOWN_NOT_ELAPSED)
      ∧ (pm.registerProof cv now cooldown false p .DEFAULT).1.existsB p.proofId
        = false)
    ∧ ((∀ pr ∈ pm.peers, collidesB p pr.proof = true →
          pr.nextPossibleConflictTime + cooldown ≤ now) →
       (∀ q ∈ pm.conflictingPool, collidesB p q = true →
          conflictingProofComparator p q = true) →
       (pm.registerProof cv now cooldown false p .DEFAULT).2 = .CONFLICTING
       ∧ (pm.registerProof cv now cooldown false p .DEFAULT).1.isInConflictingPoolB
           p.proofId = true) := by
  obtain ⟨h1, h2, h3⟩ := existsB_false_parts pm p.proofId hfresh
  obtain ⟨pr0, hpr0, hc0⟩ := hcoll
  have hne : (pm.peers.filter (fun pr => collidesB p pr.proof)).isEmpty = false :=
    filter_not_isEmpty_of_mem pm.peers _ pr0 hpr0 hc0
  have hreg := registerProof_default_ok pm cv now cooldown false p h1 h2 h3 hok
  constructor
  · rintro ⟨pr, hpr, hc, hlt⟩
    have hcdT : (pm.peers.filter (fun pr => collidesB p pr.proof)).any
        (fun pr => decide (now < pr.nextPossibleConflictTime + cooldown)) = true := by
      rw [List.any_eq_true]
      exact ⟨pr, List.mem_filter.mpr ⟨hpr, hc⟩, decide_eq_true hlt⟩
    have heq : pm.registerProof cv now cooldown false p .DEFAULT
        = (pm, .COOLDOWN_NOT_ELAPSED) := by
      rw [hreg]
      exact handleCollisions_cooldown pm now cooldown false p hne hcdT
    refine ⟨heq, ?_⟩
    rw [heq]
    exact hfresh
  · intro helapsed hpool
    have hcdF : (pm.peers.filter (fun pr => collidesB p pr.proof)).any
        (fun pr => decide (now < pr.nextPossibleConflictTime + cooldown)) = false := by
      rw [Bool.eq_false_iff]
      intro hany
      rw [List.any_eq_true] at hany
      obtain ⟨x, hx, hgx⟩ := hany
      have hmf := List.mem_filter.mp hx
      have hle := helapsed x hmf.1 hmf.2
      rw [decide_eq_true_eq] at hgx
      omega
    have hnr : (false && (pm.peers.filter (fun pr => collidesB p pr.proof)).all
        (fun pr => conflictingProofComparator p pr.proof)) = false :=
      Bool.false_and _
    have hpa := poolAdd_pos p pm.conflictingPool hpool
    have heq := handleCollisions_pool pm now cooldown false p hne hcdF hnr
    rw [hreg, heq, hpa]
    simp [PeerManager.isInConflictingPoolB]

/-- Witness for C4: the repository's S5 scenario with cooldown 100 — a
sequence-20 challenger is refused before the cooldown and enters the
conflicting pool after it. -/
theorem claim_C4_witness :
    (PeerManager.mk [Slot.mk 0 10 (some 0)] 10 0
        [Peer.mk 0 (Proof.mk 3 1 30 [Stake.mk 0 10 100 false]) 1000] [] [] [] [] 1).registerProof
        [(0, 100)] 1000 100 false (Proof.mk 2 1 20 [Stake.mk 0 10 100 false]) .DEFAULT
      = (PeerManager.mk [Slot.mk 0 10 (some 0)] 10 0
          [Peer.mk 0 (Proof.mk 3 1 30 [Stake.mk 0 10 100 false]) 1000] [] [] [] [] 1,
         .COOLDOWN_NOT_ELAPSED)
    ∧ ((PeerManager.mk [Slot.mk 0 10 (some 0)] 10 0
        [Peer.mk 0 (Proof.mk 3 1 30 [Stake.mk 0 10 100 false]) 1000] [] [] [] [] 1).registerProof
        [(0, 100)] 1100 100 false (Proof.mk 2 1 20 [Stake.mk 0 10 100 false]) .DEFAULT).2
      = .CONFLICTING := by
  constructor
  · exact ((claim_C4_cooldown_gate _ [(0, 100)] 1000 100
      (Proof.mk 2 1 20 [Stake.mk 0 10 100 false]) (by decide) (by decide)
      ⟨Peer.mk 0 (Proof.mk 3 1 30 [Stake.mk 0 10 100 false]) 1000, by decide, by decide⟩).1
      ⟨Peer.mk 0 (Proof.mk 3 1 30 [Stake.mk 0 10 100 false]) 1000, by decide, by decide,
        by decide⟩).1
  · exact ((claim_C4_cooldown_gate _ [(0, 100)] 1100 100
      (Proof.mk 2 1 20 [Stake.mk 0 10 100 false]) (by decide) (by decide)
      ⟨Peer.mk 0 (Proof.mk 3 1 30 [Stake.mk 0 10 100 false]) 1000, by decide, by decide⟩).2
      (by decide) (by decide)).1

theorem any_proofId_map (l : List Peer) (f : Peer → Peer)
    (hpf : ∀ q, (f q).proof = q.proof) (prid : Nat) :
    ((l.map f).any fun pr => pr.proof.proofId == prid)
      = (l.any fun pr => pr.proof.proofId == prid) := by
  induction l with
  | nil => rfl
  | cons a t ih => simp only [List.map_cons, List.any_cons, hpf, ih]

/-- Claim C5: a proof registered in `DEFAULT` mode that loses the
comparator against a colliding live peer enters the conflicting pool with
signal `CONFLICTING` when the comparator prefers it to every entry sharing
its UTXOs there (evicting those occupants from the manager entirely), and
is refused with `REJECTED`, stored nowhere, otherwise. -/
theorem claim_C5_conflicting_pool (pm : PeerManager) (cv : CoinView)
    (now cooldown : Nat) (repl : Bool) (p : Proof)
    (hfresh : pm.existsB p.proofId = false)
    (hok : utxoCheck cv p.stakes = StakeStatus.ok)
    (hloser : ∃ pr ∈ pm.peers, collidesB p pr.proof = true
      ∧ conflictingProofComparator p pr.proof = false)
    (helapsed : ∀ pr ∈ pm.peers, collidesB p pr.proof = true →
      pr.nextPossibleConflictTime + cooldown ≤ now)
    (hdisj : ∀ q ∈ pm.conflictingPool,
      pm.isBoundToPeerB q.proofId = false ∧ pm.isOrphanB q.proofId = false)
    (hnodup : (pm.conflictingPool.map Proof.proofId).Nodup) :
    ((∀ q ∈ pm.conflictingPool, collidesB p q = true →
        conflictingProofComparator p q = true) →
      (pm.registerProof cv now cooldown repl p .DEFAULT).2 = .CONFLICTING
      ∧ (pm.registerProof cv now cooldown repl p .DEFAULT).1.isInConflictingPoolB
          p.proofId = true
      ∧ ∀ q ∈ pm.conflictingPool, collidesB p q = true →
          (pm.registerProof cv now cooldown repl p .DEFAULT).1.existsB q.proofId
            = false)
    ∧ ((∃ q ∈ pm.conflictingPool, collidesB p q = true
        ∧ conflictingProofComparator p q = false) →
      pm.registerProof cv now cooldown repl p .DEFAULT = (pm, .REJECTED)) := by
  obtain ⟨h1, h2, h3⟩ := existsB_false_parts pm p.proofId hfresh
  obtain ⟨pr0, hpr0, hc0, hw0⟩ := hloser
  have hne : (pm.peers.filter (fun pr => collidesB p pr.proof)).isEmpty = false :=
    filter_not_isEmpty_of_mem pm.peers _ pr0 hpr0 hc0
  have hreg := registerProof_default_ok pm cv now cooldown repl p h1 h2 h3 hok
  have hcdF : (pm.peers.filter (fun pr => collidesB p pr.proof)).any
      (fun pr => decide (now < pr.nextPossibleConflictTime + cooldown)) = false := by
    rw [Bool.eq_false_iff]
    intro hany
    rw [List.any_eq_true] at hany
    obtain ⟨x, hx, hgx⟩ := hany
    have hmf := List.mem_filter.mp hx
    have hle := helapsed x hmf.1 hmf.2
    rw [decide_eq_true_eq] at hgx
    omega
  have hallF : (pm.peers.filter (fun pr => collidesB p pr.proof)).all
      (fun pr => conflictingProofComparator p pr.proof) = false := by
    rw [Bool.eq_false_iff]
    intro hall
    rw [List.all_eq_true] at hall
    have := hall pr0 (List.mem_filter.mpr ⟨hpr0, hc0⟩)
    rw [hw0] at this
    cases this
  have hnr : (repl && (pm.peers.filter (fun pr => collidesB p pr.proof)).all
      (fun pr => conflictingProofComparator p pr.proof)) = false := by
    rw [hallF, Bool.and_false]
  have hhc := handleCollisions_pool pm now cooldown repl p hne hcdF hnr
  constructor
  · intro hpool
    have hpa := poolAdd_pos p pm.conflictingPool hpool
    have heq : pm.registerProof cv now cooldown repl p .DEFAULT
        = ({ pm with
             conflictingPool := p :: pm.conflictingPool.filter (fun q => !collidesB p q),
             peers := pm.peers.map (fun pr =>
               if collidesB p pr.proof then { pr with nextPossibleConflictTime := now }
               else pr) }, .CONFLICTING) := by
      rw [hreg, hhc, hpa]
      simp
    rw [heq]
    refine ⟨rfl, ?_, ?_⟩
    · simp [PeerManager.isInConflictingPoolB]
    · intro q hq hqc
      have hqid : ¬(p.proofId == q.proofId) = true := by
        intro hbeq
        rw [beq_iff_eq] at hbeq
        unfold PeerManager.isInConflictingPoolB at h3
        rw [Bool.eq_false_iff] at h3
        apply h3
        rw [List.any_eq_true]
        exact ⟨q, hq, by rw [hbeq]; simp⟩
      unfold PeerManager.existsB
      rw [Bool.or_eq_false_iff, Bool.or_eq_false_iff]
      refine ⟨⟨?_, ?_⟩, ?_⟩
      · show ((pm.peers.map (fun pr =>
            if collidesB p pr.proof then { pr with nextPossibleConflictTime := now }
            else pr)).any fun pr => pr.proof.proofId == q.proofId) = false
        rw [any_proofId_map pm.peers _
          (fun x => by by_cases hcx : collidesB p x.proof <;> simp [hcx]) q.proofId]
        exact (hdisj q hq).1
      · exact (hdisj q hq).2
      · show ((p :: pm.conflictingPool.filter (fun r => !collidesB p r)).any
          (fun r => r.proofId == q.proofId)) = false
        rw [List.any_cons]
        rw [Bool.or_eq_false_iff]
        constructor
        · rw [Bool.eq_false_iff]
          exact hqid
        · rw [Bool.eq_false_iff]
          intro hany
          rw [List.any_eq_true] at hany
          obtain ⟨r, hr, hrq⟩ := hany
          have hrmem := List.mem_filter.mp hr
          rw [beq_iff_eq] at hrq
          have : r = q := List.inj_on_of_nodup_map hnodup hrmem.1 hq hrq
          rw [this] at hrmem
          rw [hqc] at hrmem
          simp at hrmem
  · rintro ⟨q, hq, hqc, hqw⟩
    have hpa := poolAdd_neg p pm.conflictingPool q hq hqc hqw
    rw [hreg, hhc, hpa]
    simp

/-- Witness for C5: the repository's `preferred_conflicting_proof` and
`evicted_proof` scenario — with a sequence-30 peer, a sequence-20
challenger enters the pool evicting the sequence-10 occupant, while the
sequence-10 challenger is rejected against a sequence-20 occupant. -/
theorem claim_C5_witness :
    ((PeerManager.mk [Slot.mk 0 10 (some 0)] 10 0
        [Peer.mk 0 (Proof.mk 3 1 30 [Stake.mk 0 10 100 false]) 0]
        [Proof.mk 1 1 10 [Stake.mk 0 10 100 false]] [] [] [] 1).registerProof
        [(0, 100)] 0 0 false (Proof.mk 2 1 20 [Stake.mk 0 10 100 false]) .DEFAULT).2
      = .CONFLICTING
    ∧ ((PeerManager.mk [Slot.mk 0 10 (some 0)] 10 0
        [Peer.mk 0 (Proof.mk 3 1 30 [Stake.mk 0 10 100 false]) 0]
        [Proof.mk 1 1 10 [Stake.mk 0 10 100 false]] [] [] [] 1).registerProof
        [(0, 100)] 0 0 false (Proof.mk 2 1 20 [Stake.mk 0 10 100 false]) .DEFAULT).1.existsB 1
      = false
    ∧ ((PeerManager.mk [Slot.mk 0 10 (some 0)] 10 0
        [Peer.mk 0 (Proof.mk 2 1 20 [Stake.mk 0 10 100 false]) 0]
        [Proof.mk 3 1 30 [Stake.mk 0 10 100 false]] [] [] [] 1).registerProof
        [(0, 100)] 0 0 false (Proof.mk 1 1 10 [Stake.mk 0 10 100 false]) .DEFAULT).2
      = .REJECTED := by
  have hA := claim_C5_conflicting_pool
    (PeerManager.mk [Slot.mk 0 10 (some 0)] 10 0
      [Peer.mk 0 (Proof.mk 3 1 30 [Stake.mk 0 10 100 false]) 0]
      [Proof.mk 1 1 10 [Stake.mk 0 10 100 false]] [] [] [] 1)
    [(0, 100)] 0 0 false (Proof.mk 2 1 20 [Stake.mk 0 10 100 false])
    (by decide) (by decide)
    ⟨Peer.mk 0 (Proof.mk 3 1 30 [Stake.mk 0 10 100 false]) 0, by decide, by decide, by decide⟩
    (by decide) (by decide) (by decide)
  have hB := claim_C5_conflicting_pool
    (PeerManager.mk [Slot.mk 0 10 (some 0)] 10 0
      [Peer.mk 0 (Proof.mk 2 1 20 [Stake.mk 0 10 100 false]) 0]
      [Proof.mk 3 1 30 [Stake.mk 0 10 100 false]] [] [] [] 1)
    [(0, 100)] 0 0 false (Proof.mk 1 1 10 [Stake.mk 0 10 100 false])
    (by decide) (by decide)
    ⟨Peer.mk 0 (Proof.mk 2 1 20 [Stake.mk 0 10 100 false]) 0, by decide, by decide, by decide⟩
    (by decide) (by decide) (by decide)
  refine ⟨(hA.1 (by decide)).1, ?_, ?_⟩
  · exact (hA.1 (by decide)).2.2 (Proof.mk 1 1 10 [Stake.mk 0 10 100 false])
      (by decide) (by decide)
  · rw [hB.2 ⟨Proof.mk 3 1 30 [Stake.mk 0 10 100 false], by decide, by decide, by decide⟩]

/-- Counterexample for C6: the `register_force_accept` state after the
repository's own test sequence — the peer carries sequence 20, the
conflicting pool holds sequence 30, and force-accepting sequence 10
succeeds, yet the displaced colliding live peer (sequence 20) does not end
up in the conflicting pool: it loses the per-UTXO comparison against the
sequence-30 occupant and is dropped from the manager entirely. -/
theorem claim_C6_counterexample :
    ((Peer.mk 1 (Proof.mk 2 1 20 [Stake.mk 0 10 100 false]) 0)
        ∈ (PeerManager.mk [Slot.mk 0 10 (some 1)] 10 0
            [Peer.mk 1 (Proof.mk 2 1 20 [Stake.mk 0 10 100 false]) 0]
            [Proof.mk 3 1 30 [Stake.mk 0 10 100 false]] [] [] [] 2).peers)
    ∧ collidesB (Proof.mk 1 1 10 [Stake.mk 0 10 100 false])
        (Proof.mk 2 1 20 [Stake.mk 0 10 100 false]) = true
    ∧ ((PeerManager.mk [Slot.mk 0 10 (some 1)] 10 0
          [Peer.mk 1 (Proof.mk 2 1 20 [Stake.mk 0 10 100 false]) 0]
          [Proof.mk 3 1 30 [Stake.mk 0 10 100 false]] [] [] [] 2).registerProof
          [(0, 100)] 0 0 false (Proof.mk 1 1 10 [Stake.mk 0 10 100 false])
          .FORCE_ACCEPT).2 = .SUCCESS
    ∧ ((PeerManager.mk [Slot.mk 0 10 (some 1)] 10 0
          [Peer.mk 1 (Proof.mk 2 1 20 [Stake.mk 0 10 100 false]) 0]
          [Proof.mk 3 1 30 [Stake.mk 0 10 100 false]] [] [] [] 2).registerProof
          [(0, 100)] 0 0 false (Proof.mk 1 1 10 [Stake.mk 0 10 100 false])
          .FORCE_ACCEPT).1.isInConflictingPoolB 2 = false
    ∧ ((PeerManager.mk [Slot.mk 0 10 (some 1)] 10 0
          [Peer.mk 1 (Proof.mk 2 1 20 [Stake.mk 0 10 100 false]) 0]
          [Proof.mk 3 1 30 [Stake.mk 0 10 100 false]] [] [] [] 2).registerProof
          [(0, 100)] 0 0 false (Proof.mk 1 1 10 [Stake.mk 0 10 100 false])
          .FORCE_ACCEPT).1.existsB 2 = false := by
  decide

/-- Claim C6 (amended): `FORCE_ACCEPT` registration of a proof not bound to
a peer succeeds regardless of cooldown and comparator, binds the proof as a
peer (both when it sat in the conflicting pool and when it was never
stored), and removes every colliding live peer from the peer set; a
displaced collider remains in the conflicting pool exactly when the
comparator prefers it to the entries already occupying its UTXOs there. -/
theorem claim_C6_force_accept (pm : PeerManager) (cv : CoinView)
    (now cooldown : Nat) (repl : Bool) (p : Proof)
    (hnotpeer : pm.isBoundToPeerB p.proofId = false)
    (hok : utxoCheck cv p.stakes = StakeStatus.ok)
    (hprfids : (pm.peers.map (fun q => q.proof.proofId)).Nodup)
    (hdisj : ∀ q ∈ pm.conflictingPool, pm.isBoundToPeerB q.proofId = false) :
    (pm.registerProof cv now cooldown repl p .FORCE_ACCEPT).2 = .SUCCESS
    ∧ (pm.registerProof cv now cooldown repl p .FORCE_ACCEPT).1.isBoundToPeerB
        p.proofId = true
    ∧ (∀ pr ∈ pm.peers, collidesB p pr.proof = true →
        (pm.registerProof cv now cooldown repl p .FORCE_ACCEPT).1.isBoundToPeerB
          pr.proof.proofId = false)
    ∧ (∀ pr0, pm.peers.filter (fun pr => collidesB p pr.proof) = [pr0] →
        (pm.registerProof cv now cooldown repl p .FORCE_ACCEPT).1.isInConflictingPoolB
          pr0.proof.proofId
        = ((pm.conflictingPool.filter (fun q => !(q.proofId == p.proofId))).filter
            (fun q => collidesB pr0.proof q)).all
            (fun q => conflictingProofComparator pr0.proof q)) := by
  have hreg := registerProof_force_ok pm cv now cooldown repl p hnotpeer hok
  by_cases hE : (pm.peers.filter (fun pr => collidesB p pr.proof)).isEmpty = true
  · have hc : (pm.pullFromPools p.proofId).handleCollisions now cooldown repl p
        .FORCE_ACCEPT = ((pm.pullFromPools p.proofId).accept p now, .SUCCESS) :=
      handleCollisions_noColliders _ now cooldown repl p _ hE
    rw [hreg, hc]
    refine ⟨rfl, accept_isBound _ p now, ?_, ?_⟩
    · intro pr hpr hcol
      exact absurd (filter_not_isEmpty_of_mem pm.peers _ pr hpr hcol)
        (by rw [hE]; intro hcontra; cases hcontra)
    · intro pr0 hsingle
      exfalso
      have hmem : pr0 ∈ pm.peers.filter (fun pr => collidesB p pr.proof) := by
        rw [hsingle]
        simp
      have := filter_not_isEmpty_of_mem pm.peers
        (fun pr => collidesB p pr.proof) pr0 (List.mem_of_mem_filter hmem)
        (List.mem_filter.mp hmem).2
      rw [hE] at this
      cases this
  · have hEf : (pm.peers.filter (fun pr => collidesB p pr.proof)).isEmpty = false :=
      Bool.eq_false_iff.mpr hE
    have hc := handleCollisions_force (pm.pullFromPools p.proofId)
      now cooldown repl p hEf
    rw [hreg, hc]
    refine ⟨rfl, accept_isBound _ p now, ?_, ?_⟩
    · intro pr hpr hcol
      unfold PeerManager.isBoundToPeerB
      rw [accept_peers, List.any_append, demoteAll_peers, Bool.or_eq_false_iff]
      constructor
      · rw [Bool.eq_false_iff]
        intro hany
        rw [List.any_eq_true] at hany
        obtain ⟨q, hq, hqid⟩ := hany
        have hqf := List.mem_filter.mp hq
        rw [beq_iff_eq] at hqid
        have hqpr : q = pr :=
          List.inj_on_of_nodup_map hprfids hqf.1 hpr hqid
        have hprcoll : pr ∈ pm.peers.filter (fun x => collidesB p x.proof) :=
          List.mem_filter.mpr ⟨hpr, hcol⟩
        have hany2 : ((List.filter (fun pr => collidesB p pr.proof)
            (pm.pullFromPools p.proofId).peers).any
            (fun x => q.peerid == x.peerid)) = true := by
          rw [List.any_eq_true]
          refine ⟨pr, hprcoll, ?_⟩
          rw [hqpr]
          simp
        rw [hany2] at hqf
        simp at hqf
      · rw [List.any_cons, List.any_nil, Bool.or_false, Bool.eq_false_iff]
        intro hpid
        rw [beq_iff_eq] at hpid
        rw [Bool.eq_false_iff] at hnotpeer
        apply hnotpeer
        unfold PeerManager.isBoundToPeerB
        rw [List.any_eq_true]
        exact ⟨pr, hpr, by rw [← hpid]; simp⟩
    · intro pr0 hsingle
      have hpr0mem : pr0 ∈ pm.peers := by
        have : pr0 ∈ pm.peers.filter (fun pr => collidesB p pr.proof) := by
          rw [hsingle]; simp
        exact List.mem_of_mem_filter this
      have hsingle2 : List.filter (fun pr => collidesB p pr.proof)
          (pm.pullFromPools p.proofId).peers = [pr0] := hsingle
      have hpool : ((List.foldl PeerManager.demoteToConflicting
          (pm.pullFromPools p.proofId)
          (List.filter (fun pr => collidesB p pr.proof)
            (pm.pullFromPools p.proofId).peers)).accept p now).conflictingPool
          = (poolAdd pr0.proof
              (pm.conflictingPool.filter (fun q => !(q.proofId == p.proofId)))).2 := by
        rw [accept_conflictingPool, hsingle2, List.foldl_cons, List.foldl_nil,
          demoteToConflicting_conflictingPool, pullFromPools_conflictingPool]
      unfold PeerManager.isInConflictingPoolB
      dsimp only
      rw [hpool]
      by_cases hcond : ((pm.conflictingPool.filter (fun q => !(q.proofId == p.proofId))).filter
          (fun q => collidesB pr0.proof q)).all
          (fun q => conflictingProofComparator pr0.proof q) = true
      · rw [hcond]
        unfold poolAdd
        rw [if_pos hcond]
        simp
      · have hcondf := Bool.eq_false_iff.mpr hcond
        rw [hcondf]
        unfold poolAdd
        rw [if_neg hcond]
        rw [Bool.eq_false_iff]
        intro hany
        rw [List.any_eq_true] at hany
        obtain ⟨q, hq, hqid⟩ := hany
        have hqmem := List.mem_of_mem_filter hq
        rw [beq_iff_eq] at hqid
        have := hdisj q hqmem
        rw [Bool.eq_false_iff] at this
        apply this
        unfold PeerManager.isBoundToPeerB
        rw [List.any_eq_true]
        exact ⟨pr0, hpr0mem, by rw [hqid]; simp⟩

/-- Witness for C6 (amended) at the repository's force-accept scenario:
force-accepting the pool-resident sequence-20 proof over the sequence-30
peer succeeds, binds it, unbinds the collider and keeps the collider in the
conflicting pool (it wins the now-free UTXO slot). -/
theorem claim_C6_witness :
    ((PeerManager.mk [Slot.mk 0 10 (some 0)] 10 0
        [Peer.mk 0 (Proof.mk 3 1 30 [Stake.mk 0 10 100 false]) 0]
        [Proof.mk 2 1 20 [Stake.mk 0 10 100 false]] [] [] [] 1).registerProof
        [(0, 100)] 0 0 false (Proof.mk 2 1 20 [Stake.mk 0 10 100 false])
        .FORCE_ACCEPT).2 = .SUCCESS
    ∧ ((PeerManager.mk [Slot.mk 0 10 (some 0)] 10 0
        [Peer.mk 0 (Proof.mk 3 1 30 [Stake.mk 0 10 100 false]) 0]
        [Proof.mk 2 1 20 [Stake.mk 0 10 100 false]] [] [] [] 1).registerProof
        [(0, 100)] 0 0 false (Proof.mk 2 1 20 [Stake.mk 0 10 100 false])
        .FORCE_ACCEPT).1.isBoundToPeerB 2 = true
    ∧ ((PeerManager.mk [Slot.mk 0 10 (some 0)] 10 0
        [Peer.mk 0 (Proof.mk 3 1 30 [Stake.mk 0 10 100 false]) 0]
        [Proof.mk 2 1 20 [Stake.mk 0 10 100 false]] [] [] [] 1).registerProof
        [(0, 100)] 0 0 false (Proof.mk 2 1 20 [Stake.mk 0 10 100 false])
        .FORCE_ACCEPT).1.isBoundToPeerB 3 = false
    ∧ ((PeerManager.mk [Slot.mk 0 10 (some 0)] 10 0
        [Peer.mk 0 (Proof.mk 3 1 30 [Stake.mk 0 10 100 false]) 0]
        [Proof.mk 2 1 20 [Stake.mk 0 10 100 false]] [] [] [] 1).registerProof
        [(0, 100)] 0 0 false (Proof.mk 2 1 20 [Stake.mk 0 10 100 false])
        .FORCE_ACCEPT).1.isInConflictingPoolB 3 = true := by
  have h := claim_C6_force_accept
    (PeerManager.mk [Slot.mk 0 10 (some 0)] 10 0
      [Peer.mk 0 (Proof.mk 3 1 30 [Stake.mk 0 10 100 false]) 0]
      [Proof.mk 2 1 20 [Stake.mk 0 10 100 false]] [] [] [] 1)
    [(0, 100)] 0 0 false (Proof.mk 2 1 20 [Stake.mk 0 10 100 false])
    (by decide) (by decide) (by decide) (by decide)
  refine ⟨h.1, h.2.1, ?_, ?_⟩
  · exact h.2.2.1 (Peer.mk 0 (Proof.mk 3 1 30 [Stake.mk 0 10 100 false]) 0)
      (by decide) (by decide)
  · have h4 := h.2.2.2 (Peer.mk 0 (Proof.mk 3 1 30 [Stake.mk 0 10 100 false]) 0)
      (by decide)
    rw [h4]
    decide

/-- Witness for C1 at a concrete pair of colliding proofs. -/
theorem claim_C1_witness :
    collidesB (Proof.mk 3 1 7 [Stake.mk 0 5 10 false])
        (Proof.mk 4 2 9 [Stake.mk 0 6 10 false]) = true
    ∧ conflictingProofComparator (Proof.mk 3 1 7 [Stake.mk 0 5 10 false])
        (Proof.mk 4 2 9 [Stake.mk 0 6 10 false]) = false :=
  ⟨by decide,
   by
    have h := claim_C1_conflicting_proof_comparator
      (Proof.mk 3 1 7 [Stake.mk 0 5 10 false])
      (Proof.mk 4 2 9 [Stake.mk 0 6 10 false]) (by decide) (by decide)
    rw [h.2.1 (Or.inl (by decide)) (by decide)]
    decide⟩

/-- Witness for C2 at the two-slot vector of the repository's
`select_peer_linear` test. -/
theorem claim_C2_witness :
    selectPeerImpl [Slot.mk 100 100 (some 69), Slot.mk 300 100 (some 42)] 342 500
      = some 42 := by
  have h := claim_C2_select_peer
    [Slot.mk 100 100 (some 69), Slot.mk 300 100 (some 42)] 342 500
    (by constructor
        · intro b hb
          simp only [List.mem_singleton] at hb
          subst hb
          decide
        · simp)
  exact h.2.2.2.2 (Slot.mk 300 100 (some 42)) (by simp) (by decide) (by decide)

theorem registerProof_default_success (pm : PeerManager) (cv : CoinView)
    (now cooldown : Nat) (p : Proof) (pm' : PeerManager)
    (h : pm.registerProof cv now cooldown false p .DEFAULT = (pm', .SUCCESS)) :
    pm' = pm.accept p now := by
  by_cases h1 : pm.isBoundToPeerB p.proofId = true
  · simp [PeerManager.registerProof, h1] at h
  · have h1' := Bool.eq_false_iff.mpr h1
    by_cases h2 : pm.isOrphanB p.proofId = true
    · simp [PeerManager.registerProof, h1', h2] at h
    · have h2' := Bool.eq_false_iff.mpr h2
      by_cases h3 : pm.isInConflictingPoolB p.proofId = true
      · simp [PeerManager.registerProof, h1', h2', h3] at h
      · have h3' := Bool.eq_false_iff.mpr h3
        cases h4 : utxoCheck cv p.stakes with
        | missing => simp [PeerManager.registerProof, h1', h2', h3', h4] at h
        | mismatch => simp [PeerManager.registerProof, h1', h2', h3', h4] at h
        | ok =>
          rw [registerProof_default_ok pm cv now cooldown false p h1' h2' h3' h4] at h
          by_cases h5 : (pm.peers.filter (fun pr => collidesB p pr.proof)).isEmpty = true
          · rw [handleCollisions_noColliders pm now cooldown false p .DEFAULT h5] at h
            injection h with ha hb
            exact ha.symm
          · have h5' := Bool.eq_false_iff.mpr h5
            by_cases h6 : (pm.peers.filter (fun pr => collidesB p pr.proof)).any
                (fun pr => decide (now < pr.nextPossibleConflictTime + cooldown)) = true
            · rw [handleCollisions_cooldown pm now cooldown false p h5' h6] at h
              simp at h
            · have h6' := Bool.eq_false_iff.mpr h6
              rw [handleCollisions_pool pm now cooldown false p h5' h6' (by simp)] at h
              by_cases h7 : (poolAdd p pm.conflictingPool).1 = true
              · rw [if_pos h7] at h
                simp at h
              · rw [if_neg h7] at h
                simp at h

theorem accept_node_binding (pm : PeerManager) (p : Proof) (now : Nat)
    (hndP : (pm.pendingNodes.map PendingNode.nodeid).Nodup)
    (hndN : (pm.nodes.map Node.nodeid).Nodup)
    (hdisj : ∀ e ∈ pm.pendingNodes, ∀ n ∈ pm.nodes,
        n.nodeid = e.nodeid → n.peerid = NO_PEER) :
    (∀ e ∈ pm.pendingNodes, e.proofId = p.proofId →
        (pm.accept p now).forNodeB e.nodeid
            (fun n => n.peerid == some pm.nextPeerId) = true
        ∧ (pm.accept p now).isNodePendingB e.nodeid = false)
    ∧ (pm.accept p now).getNodeCount = pm.getNodeCount
        + (pm.pendingNodes.filter (fun e => e.proofId == p.proofId)).length
    ∧ (pm.accept p now).getPendingNodeCount
        + (pm.pendingNodes.filter (fun e => e.proofId == p.proofId)).length
        = pm.getPendingNodeCount := by
  have hndT : ((pm.pendingNodes.filter (fun e => e.proofId == p.proofId)).map
      PendingNode.nodeid).Nodup :=
    List.Nodup.sublist (List.Sublist.map PendingNode.nodeid
      (List.filter_sublist pm.pendingNodes)) hndP
  refine ⟨?_, ?_, ?_⟩
  · intro e he hpe
    have heT : e ∈ pm.pendingNodes.filter (fun e => e.proofId == p.proofId) :=
      List.mem_filter.mpr ⟨he, by simp [hpe]⟩
    obtain ⟨t, ht⟩ := foldBind_find_mem pm.nextPeerId
      (pm.pendingNodes.filter (fun e => e.proofId == p.proofId)) pm.nodes e heT hndT
    constructor
    · unfold PeerManager.forNodeB
      rw [accept_nodes, ht]
      simp
    · unfold PeerManager.isNodePendingB
      rw [accept_pendingNodes]
      apply Bool.eq_false_iff.mpr
      intro hc
      rw [List.any_eq_true] at hc
      obtain ⟨x, hx, hpx⟩ := hc
      have hx1 := List.mem_filter.mp hx
      rw [beq_iff_eq] at hpx
      have hxe : x = e := List.inj_on_of_nodup_map hndP hx1.1 he hpx
      have hx2 := hx1.2
      rw [hxe] at hx2
      simp [hpe] at hx2
  · show ((pm.accept p now).nodes.filter (fun n => !(n.peerid == NO_PEER))).length = _
    rw [accept_nodes]
    exact foldBind_boundCount pm.nextPeerId
      (pm.pendingNodes.filter (fun e => e.proofId == p.proofId)) pm.nodes hndT hndN
      (fun e he n hn h => hdisj e (List.mem_of_mem_filter he) n hn h)
  · show (pm.accept p now).pendingNodes.length + _ = pm.pendingNodes.length
    rw [accept_pendingNodes]
    have hlen : pm.pendingNodes.length
        = (pm.pendingNodes.filter (fun e => e.proofId == p.proofId)).length
          + (pm.pendingNodes.filter (fun e => !(e.proofId == p.proofId))).length :=
      List.length_eq_length_filter_add _
    omega

/-- Claim C7: node-binding closure.  In the default configuration
(`DEFAULT` mode, proof replacement disabled), whenever `register_proof`
succeeds for a proof `P`, every pending node announcing `P.id` is bound to
the newly allocated peer and has left the pending table, the bound-node
count grows by the number of such entries and the pending count shrinks by
the same number; and after `remove_peer`, every node that was bound to the
removed peer is pending again and bound to no peer.  The pending and node
tables are assumed key-unique with pending node ids unbound, as the
manager's multi-indices guarantee. -/
theorem claim_C7_node_binding (pm : PeerManager) (cv : CoinView)
    (now cooldown : Nat) (p : Proof)
    (hndP : (pm.pendingNodes.map PendingNode.nodeid).Nodup)
    (hndN : (pm.nodes.map Node.nodeid).Nodup)
    (hdisj : ∀ e ∈ pm.pendingNodes, ∀ n ∈ pm.nodes,
        n.nodeid = e.nodeid → n.peerid = NO_PEER) :
    (∀ pm', pm.registerProof cv now cooldown false p .DEFAULT = (pm', .SUCCESS) →
      (∀ e ∈ pm.pendingNodes, e.proofId = p.proofId →
        pm'.forNodeB e.nodeid (fun n => n.peerid == some pm.nextPeerId) = true
        ∧ pm'.isNodePendingB e.nodeid = false)
      ∧ pm'.getNodeCount = pm.getNodeCount
          + (pm.pendingNodes.filter (fun e => e.proofId == p.proofId)).length
      ∧ pm'.getPendingNodeCount
          + (pm.pendingNodes.filter (fun e => e.proofId == p.proofId)).length
          = pm.getPendingNodeCount)
    ∧ (∀ pid pm2, pm.removePeer pid = (pm2, true) →
        ∀ n ∈ pm.nodes, n.peerid = some pid →
          pm2.isNodePendingB n.nodeid = true
          ∧ pm2.forNodeB n.nodeid (fun m => m.peerid == NO_PEER) = true) := by
  constructor
  · intro pm' h
    obtain rfl : pm' = pm.accept p now :=
      registerProof_default_success pm cv now cooldown p pm' h
    exact accept_node_binding pm p now hndP hndN hdisj
  · intro pid pm2 h n hn hb
    cases hf : pm.peers.find? (fun q => q.peerid == pid) with
    | none =>
      rw [removePeer_notFound pm pid hf] at h
      simp at h
    | some pr =>
      rw [removePeer_found pm pid pr hf] at h
      have hpr : pr.peerid = pid := by simpa using List.find?_some hf
      injection h with h1 h2
      rw [← h1]
      constructor
      · unfold PeerManager.isNodePendingB
        rw [removePeerCore_pendingNodes, List.any_eq_true]
        exact ⟨PendingNode.mk pr.proof.proofId n.nodeid,
          List.mem_append_left _ (List.mem_map.mpr
            ⟨n, List.mem_filter.mpr ⟨hn, by simp [hb, hpr]⟩, rfl⟩),
          by simp⟩
      · have hg : ∀ m : Node, ((fun k : Node =>
            if k.peerid == some pr.peerid then { k with peerid := NO_PEER } else k)
              m).nodeid = m.nodeid := by
          intro m
          by_cases hh : (m.peerid == some pr.peerid) = true <;> simp [hh]
        unfold PeerManager.forNodeB
        rw [removePeerCore_nodes, find_nodeid_map pm.nodes _ hg n.nodeid,
          find_nodeid_self pm.nodes hndN n hn]
        simp [hb, hpr, NO_PEER]

theorem claim_C7_witness :
    ((PeerManager.mk [] 0 0 [] [] [] [] [PendingNode.mk 42 7] 0).registerProof
        [(100, 5)] 0 100 false (Proof.mk 42 1 0 [Stake.mk 100 10 5 false])
        .DEFAULT).1.forNodeB 7 (fun n => n.peerid == some 0) = true
    ∧ ((PeerManager.mk [] 0 0 [] [] [] [] [PendingNode.mk 42 7] 0).registerProof
        [(100, 5)] 0 100 false (Proof.mk 42 1 0 [Stake.mk 100 10 5 false])
        .DEFAULT).1.isNodePendingB 7 = false
    ∧ ((PeerManager.mk [Slot.mk 0 10 (some 0)] 10 0
        [Peer.mk 0 (Proof.mk 9 1 0 [Stake.mk 100 10 5 false]) 0] [] []
        [Node.mk 3 (some 0) 77] [] 1).removePeer 0).1.isNodePendingB 3 = true := by
  have h1 := claim_C7_node_binding
    (PeerManager.mk [] 0 0 [] [] [] [] [PendingNode.mk 42 7] 0)
    [(100, 5)] 0 100 (Proof.mk 42 1 0 [Stake.mk 100 10 5 false])
    (by decide) (by decide) (by decide)
  have h2 := claim_C7_node_binding
    (PeerManager.mk [Slot.mk 0 10 (some 0)] 10 0
      [Peer.mk 0 (Proof.mk 9 1 0 [Stake.mk 100 10 5 false]) 0] [] []
      [Node.mk 3 (some 0) 77] [] 1)
    [(100, 5)] 0 100 (Proof.mk 9 1 0 [Stake.mk 100 10 5 false])
    (by decide) (by decide) (by decide)
  have ha := h1.1 ((PeerManager.mk [] 0 0 [] [] [] [] [PendingNode.mk 42 7] 0).registerProof
      [(100, 5)] 0 100 false (Proof.mk 42 1 0 [Stake.mk 100 10 5 false]) .DEFAULT).1
    (by decide)
  have hb := h2.2 0 ((PeerManager.mk [Slot.mk 0 10 (some 0)] 10 0
      [Peer.mk 0 (Proof.mk 9 1 0 [Stake.mk 100 10 5 false]) 0] [] []
      [Node.mk 3 (some 0) 77] [] 1).removePeer 0).1
    (by decide) (Node.mk 3 (some 0) 77) (by decide) rfl
  exact ⟨(ha.1 (PendingNode.mk 42 7) (by decide) rfl).1,
    (ha.1 (PendingNode.mk 42 7) (by decide) rfl).2, hb.1⟩

/-- Claim C9: the orphan pool keeps at most one orphan per stake UTXO.
Registering a proof that itself classifies as an orphan and that the
comparator prefers to a colliding tracked orphan evicts that orphan from
the manager entirely, the newcomer taking its place in the orphan pool;
the registration reports the orphan-classifying reason. -/
theorem claim_C9_orphan_eviction (pm : PeerManager) (cv : CoinView)
    (now cooldown : Nat) (repl : Bool) (O1 O2 : Proof)
    (hO1 : O1 ∈ pm.orphanPool)
    (hb2 : pm.isBoundToPeerB O2.proofId = false)
    (ho2 : pm.isOrphanB O2.proofId = false)
    (hc2 : pm.isInConflictingPoolB O2.proofId = false)
    (hb1 : pm.isBoundToPeerB O1.proofId = false)
    (hc1 : pm.isInConflictingPoolB O1.proofId = false)
    (huniq : ∀ q ∈ pm.orphanPool, q.proofId = O1.proofId → q = O1)
    (hcol : collidesB O2 O1 = true)
    (hpref : ∀ q ∈ pm.orphanPool, collidesB O2 q = true →
        conflictingProofComparator O2 q = true)
    (horph : utxoCheck cv O2.stakes ≠ .ok) :
    (pm.registerProof cv now cooldown repl O2 .DEFAULT).1.existsB O1.proofId = false
    ∧ (pm.registerProof cv now cooldown repl O2 .DEFAULT).1.isOrphanB O2.proofId = true
    ∧ (pm.registerProof cv now cooldown repl O2 .DEFAULT).2
      = (if utxoCheck cv O2.stakes = .missing then .MISSING_UTXO
         else .HEIGHT_MISMATCH) := by
  rw [registerProof_default_orphan pm cv now cooldown repl O2 hb2 ho2 hc2 horph]
  dsimp only
  have hpooladd : poolAdd O2 pm.orphanPool
      = (true, O2 :: pm.orphanPool.filter (fun q => !collidesB O2 q)) := by
    unfold poolAdd
    rw [if_pos]
    rw [List.all_eq_true]
    intro q hq
    exact hpref q (List.mem_of_mem_filter hq) (List.of_mem_filter hq)
  have hne : O2.proofId ≠ O1.proofId := by
    intro hEq
    have hor : pm.isOrphanB O2.proofId = true := by
      unfold PeerManager.isOrphanB
      rw [List.any_eq_true]
      exact ⟨O1, hO1, by simp [hEq]⟩
    rw [hor] at ho2
    cases ho2
  have hOrph : (pm.toOrphanPool O2).isOrphanB O1.proofId = false := by
    unfold PeerManager.isOrphanB PeerManager.toOrphanPool
    dsimp only
    rw [hpooladd]
    dsimp only
    apply Bool.eq_false_iff.mpr
    intro hc
    rw [List.any_eq_true] at hc
    obtain ⟨q, hqmem, hqid⟩ := hc
    rw [beq_iff_eq] at hqid
    rcases List.mem_cons.mp hqmem with heq | hmem
    · subst heq
      exact hne hqid
    · have hq1 := List.mem_of_mem_filter hmem
      have hq2 := List.of_mem_filter hmem
      have hq3 : q = O1 := huniq q hq1 hqid
      rw [hq3, hcol] at hq2
      simp at hq2
  refine ⟨?_, ?_, rfl⟩
  · have hBound : (pm.toOrphanPool O2).isBoundToPeerB O1.proofId = false := hb1
    have hConf : (pm.toOrphanPool O2).isInConflictingPoolB O1.proofId = false := hc1
    unfold PeerManager.existsB
    rw [hBound, hOrph, hConf]
    rfl
  · unfold PeerManager.isOrphanB PeerManager.toOrphanPool
    dsimp only
    rw [hpooladd]
    dsimp only
    rw [List.any_cons]
    simp

theorem claim_C9_witness :
    ((PeerManager.mk [] 0 0 [] []
        [Proof.mk 1 1 10 [Stake.mk 0 10 100 false]] [] [] 0).registerProof
        [] 0 100 false (Proof.mk 2 1 20 [Stake.mk 0 10 100 false])
        .DEFAULT).1.existsB 1 = false
    ∧ ((PeerManager.mk [] 0 0 [] []
        [Proof.mk 1 1 10 [Stake.mk 0 10 100 false]] [] [] 0).registerProof
        [] 0 100 false (Proof.mk 2 1 20 [Stake.mk 0 10 100 false])
        .DEFAULT).1.isOrphanB 2 = true := by
  have h := claim_C9_orphan_eviction
    (PeerManager.mk [] 0 0 [] [] [Proof.mk 1 1 10 [Stake.mk 0 10 100 false]] [] [] 0)
    [] 0 100 false
    (Proof.mk 1 1 10 [Stake.mk 0 10 100 false])
    (Proof.mk 2 1 20 [Stake.mk 0 10 100 false])
    (by decide) (by decide) (by decide) (by decide) (by decide) (by decide)
    (by decide) (by decide) (by decide) (by decide)
  exact ⟨h.1, h.2.1⟩

theorem addNode_found (pm : PeerManager) (nid prid : Nat) (pr : Peer)
    (hf : pm.peers.find? (fun q => q.proof.proofId == prid) = some pr) :
    pm.addNode nid prid
      = ({ pm with
           pendingNodes := pm.pendingNodes.filter (fun e => !(e.nodeid == nid)),
           nodes := bindNode pm.nodes nid pr.peerid }, true) := by
  unfold PeerManager.addNode
  rw [hf]

/-- Claim C10: `remove_peer` deletes only the peer and its slot, never the
node records — the node table keeps exactly the same node ids, and every
node that was bound to the removed peer stays queryable through `for_node`
with its node id and `next_request_time` unchanged; and when `add_node`
later rebinds a known node to a peer, the node's previously set
`next_request_time` is preserved. -/
theorem claim_C10_dangling_nodes (pm : PeerManager)
    (hndN : (pm.nodes.map Node.nodeid).Nodup) :
    (∀ pid pm2, pm.removePeer pid = (pm2, true) →
      pm2.nodes.map Node.nodeid = pm.nodes.map Node.nodeid
      ∧ ∀ n ∈ pm.nodes, n.peerid = some pid →
          pm2.forNodeB n.nodeid
            (fun m => (m.nodeid == n.nodeid)
              && (m.nextRequestTime == n.nextRequestTime)) = true)
    ∧ (∀ prid pr, pm.peers.find? (fun q => q.proof.proofId == prid) = some pr →
        ∀ n ∈ pm.nodes,
          (pm.addNode n.nodeid prid).1.forNodeB n.nodeid
            (fun m => (m.peerid == some pr.peerid)
              && (m.nextRequestTime == n.nextRequestTime)) = true) := by
  constructor
  · intro pid pm2 h
    cases hf : pm.peers.find? (fun q => q.peerid == pid) with
    | none =>
      rw [removePeer_notFound pm pid hf] at h
      simp at h
    | some pr =>
      rw [removePeer_found pm pid pr hf] at h
      injection h with h1 h2
      rw [← h1]
      have hg : ∀ m : Node, ((fun k : Node =>
          if k.peerid == some pr.peerid then { k with peerid := NO_PEER } else k)
            m).nodeid = m.nodeid := by
        intro m
        by_cases hh : (m.peerid == some pr.peerid) = true <;> simp [hh]
      constructor
      · rw [removePeerCore_nodes, List.map_map]
        apply List.map_congr_left
        intro m _
        exact hg m
      · intro n hn _hb
        unfold PeerManager.forNodeB
        rw [removePeerCore_nodes, find_nodeid_map pm.nodes _ hg n.nodeid,
          find_nodeid_self pm.nodes hndN n hn]
        rcases eq_or_ne n.peerid (some pr.peerid) with he | he <;> simp [he]
  · intro prid pr hf n hn
    rw [addNode_found pm n.nodeid prid pr hf]
    dsimp only
    unfold PeerManager.forNodeB
    dsimp only
    obtain ⟨t, ht, hpres⟩ := bindNode_find_self pm.nodes n.nodeid pr.peerid
    have hteq : t = n.nextRequestTime := hpres n (find_nodeid_self pm.nodes hndN n hn)
    rw [ht, hteq]
    simp

theorem claim_C10_witness :
    (((PeerManager.mk [Slot.mk 0 10 (some 0)] 10 0
        [Peer.mk 0 (Proof.mk 9 1 0 [Stake.mk 100 10 5 false]) 0] [] []
        [Node.mk 3 (some 0) 77] [] 1).removePeer 0).1.forNodeB 3
        (fun m => (m.nodeid == 3) && (m.nextRequestTime == 77)) = true)
    ∧ (((PeerManager.mk [Slot.mk 0 10 (some 0)] 10 0
        [Peer.mk 0 (Proof.mk 9 1 0 [Stake.mk 100 10 5 false]) 0] [] []
        [Node.mk 3 NO_PEER 77] [] 1).addNode 3 9).1.forNodeB 3
        (fun m => (m.peerid == some 0) && (m.nextRequestTime == 77)) = true) := by
  have hA := (claim_C10_dangling_nodes
    (PeerManager.mk [Slot.mk 0 10 (some 0)] 10 0
      [Peer.mk 0 (Proof.mk 9 1 0 [Stake.mk 100 10 5 false]) 0] [] []
      [Node.mk 3 (some 0) 77] [] 1) (by decide)).1 0
    ((PeerManager.mk [Slot.mk 0 10 (some 0)] 10 0
      [Peer.mk 0 (Proof.mk 9 1 0 [Stake.mk 100 10 5 false]) 0] [] []
      [Node.mk 3 (some 0) 77] [] 1).removePeer 0).1 (by decide)
  have hB := (claim_C10_dangling_nodes
    (PeerManager.mk [Slot.mk 0 10 (some 0)] 10 0
      [Peer.mk 0 (Proof.mk 9 1 0 [Stake.mk 100 10 5 false]) 0] [] []
      [Node.mk 3 NO_PEER 77] [] 1) (by decide)).2 9
    (Peer.mk 0 (Proof.mk 9 1 0 [Stake.mk 100 10 5 false]) 0) (by decide)
    (Node.mk 3 NO_PEER 77) (by decide)
  exact ⟨hA.2 (Node.mk 3 (some 0) 77) (by decide) rfl, hB⟩

theorem removePeerCore_orphanPool (pm : PeerManager) (pr : Peer) :
    (pm.removePeerCore pr).orphanPool = pm.orphanPool := rfl

theorem demoteToOrphan_orphanPool (pm : PeerManager) (pr : Peer) :
    (pm.demoteToOrphan pr).orphanPool = (poolAdd pr.proof pm.orphanPool).2 := rfl

theorem demoteToOrphan_conflictingPool (pm : PeerManager) (pr : Peer) :
    (pm.demoteToOrphan pr).conflictingPool = pm.conflictingPool := rfl

theorem demoteToOrphan_nodes (pm : PeerManager) (pr : Peer) :
    (pm.demoteToOrphan pr).nodes
      = pm.nodes.map (fun n =>
          if n.peerid == some pr.peerid then { n with peerid := NO_PEER } else n) := rfl

theorem demoteToOrphan_pendingNodes (pm : PeerManager) (pr : Peer) :
    (pm.demoteToOrphan pr).pendingNodes
      = (pm.nodes.filter (fun n => n.peerid == some pr.peerid)).map
          (fun n => PendingNode.mk pr.proof.proofId n.nodeid)
        ++ pm.pendingNodes := rfl

theorem tipPromote_eq (pm : PeerManager) (cv : CoinView) (now cooldown : Nat)
    (repl : Bool) :
    pm.tipPromote cv now cooldown repl
      = regFold cv now cooldown repl (pm.orphanPool.filter (fun p => validB cv p))
          { pm with orphanPool := pm.orphanPool.filter (fun p => !(validB cv p)) } :=
  rfl

theorem poolAdd_nocollide (p : Proof) (pool : List Proof)
    (h : ∀ q ∈ pool, collidesB p q = false) :
    poolAdd p pool = (true, p :: pool) := by
  have h1 : pool.filter (fun q => collidesB p q) = [] := by
    rw [List.filter_eq_nil]
    intro q hq
    simp [h q hq]
  have h2 : pool.filter (fun q => !collidesB p q) = pool := by
    rw [List.filter_eq_self]
    intro q hq
    simp [h q hq]
  unfold poolAdd
  rw [h1, h2]
  simp

theorem demFold_conflictingPool (L : List Peer) :
    ∀ s : PeerManager,
    (L.foldl PeerManager.demoteToOrphan s).conflictingPool = s.conflictingPool := by
  induction L with
  | nil => intro s; rfl
  | cons a t ih =>
    intro s
    rw [List.foldl_cons, ih, demoteToOrphan_conflictingPool]

theorem demFold_peers (L : List Peer) :
    ∀ s : PeerManager,
    (L.foldl PeerManager.demoteToOrphan s).peers
      = s.peers.filter (fun q => !(L.any (fun x => q.peerid == x.peerid))) := by
  induction L with
  | nil =>
    intro s
    simp
  | cons a t ih =>
    intro s
    rw [List.foldl_cons, ih (s.demoteToOrphan a), demoteToOrphan_peers,
      List.filter_filter]
    apply List.filter_congr
    intro q _
    simp only [List.any_cons, Bool.not_or]
    rw [Bool.and_comm]

theorem demFold_nodeids (L : List Peer) :
    ∀ s : PeerManager,
    (L.foldl PeerManager.demoteToOrphan s).nodes.map Node.nodeid
      = s.nodes.map Node.nodeid := by
  induction L with
  | nil => intro s; rfl
  | cons a t ih =>
    intro s
    rw [List.foldl_cons, ih, demoteToOrphan_nodes, List.map_map]
    apply List.map_congr_left
    intro n _
    rcases eq_or_ne n.peerid (some a.peerid) with he | he <;> simp [he]

theorem demFold_pending_mono (L : List Peer) :
    ∀ (s : PeerManager) (e : PendingNode), e ∈ s.pendingNodes →
    e ∈ (L.foldl PeerManager.demoteToOrphan s).pendingNodes := by
  induction L with
  | nil => intro s e he; exact he
  | cons a t ih =>
    intro s e he
    rw [List.foldl_cons]
    apply ih
    rw [demoteToOrphan_pendingNodes]
    exact List.mem_append_right _ he

theorem demFold_freed (L : List Peer) :
    ∀ s : PeerManager, (L.map Peer.peerid).Nodup →
    ∀ x ∈ L, ∀ n ∈ s.nodes, n.peerid = some x.peerid →
      PendingNode.mk x.proof.proofId n.nodeid
        ∈ (L.foldl PeerManager.demoteToOrphan s).pendingNodes := by
  induction L with
  | nil => intro s _ x hx; cases hx
  | cons a t ih =>
    intro s hnd x hx n hn hb
    rw [List.foldl_cons]
    rcases List.mem_cons.mp hx with heq | hmem
    · subst heq
      apply demFold_pending_mono t
      rw [demoteToOrphan_pendingNodes]
      apply List.mem_append_left
      exact List.mem_map.mpr ⟨n, List.mem_filter.mpr ⟨hn, by simp [hb]⟩, rfl⟩
    · have hndt : (t.map Peer.peerid).Nodup := by
        simp only [List.map_cons, List.nodup_cons] at hnd
        exact hnd.2
      have hne : x.peerid ≠ a.peerid := by
        intro hc
        simp only [List.map_cons, List.nodup_cons] at hnd
        apply hnd.1
        rw [← hc]
        exact List.mem_map_of_mem Peer.peerid hmem
      have hgn : (if n.peerid == some a.peerid
          then { n with peerid := NO_PEER } else n) = n := by
        rw [if_neg]
        simp [hb, hne]
      apply ih (s.demoteToOrphan a) hndt x hmem n ?_ hb
      rw [demoteToOrphan_nodes, ← hgn]
      exact List.mem_map_of_mem _ hn

theorem demote_J (s : PeerManager) (a : Peer)
    (h1 : (s.pendingNodes.map PendingNode.nodeid).Nodup)
    (h2 : (s.nodes.map Node.nodeid).Nodup)
    (h3 : ∀ e ∈ s.pendingNodes, ∀ n ∈ s.nodes,
        n.nodeid = e.nodeid → n.peerid = NO_PEER) :
    ((s.demoteToOrphan a).pendingNodes.map PendingNode.nodeid).Nodup
    ∧ ((s.demoteToOrphan a).nodes.map Node.nodeid).Nodup
    ∧ (∀ e ∈ (s.demoteToOrphan a).pendingNodes,
        ∀ n ∈ (s.demoteToOrphan a).nodes,
        n.nodeid = e.nodeid → n.peerid = NO_PEER) := by
  have hnid : (s.demoteToOrphan a).nodes.map Node.nodeid = s.nodes.map Node.nodeid := by
    rw [demoteToOrphan_nodes, List.map_map]
    apply List.map_congr_left
    intro n _
    rcases eq_or_ne n.peerid (some a.peerid) with he | he <;> simp [he]
  have hfr : ((s.nodes.filter (fun n => n.peerid == some a.peerid)).map
      (fun n => PendingNode.mk a.proof.proofId n.nodeid)).map PendingNode.nodeid
      = (s.nodes.filter (fun n => n.peerid == some a.peerid)).map Node.nodeid := by
    rw [List.map_map]
    rfl
  refine ⟨?_, by rw [hnid]; exact h2, ?_⟩
  · rw [demoteToOrphan_pendingNodes, List.map_append, List.nodup_append]
    refine ⟨?_, h1, ?_⟩
    · rw [hfr]
      exact List.Nodup.sublist (List.Sublist.map _ (List.filter_sublist _)) h2
    · intro x hx hx2
      rw [hfr] at hx
      obtain ⟨n, hn, hnx⟩ := List.mem_map.mp hx
      obtain ⟨e, he, hex⟩ := List.mem_map.mp hx2
      have hbd := List.of_mem_filter hn
      have hnm := List.mem_of_mem_filter hn
      have hub := h3 e he n hnm (by rw [hnx, hex])
      rw [hub] at hbd
      simp [NO_PEER] at hbd
  · intro e he n hn hni
    rw [demoteToOrphan_pendingNodes] at he
    rw [demoteToOrphan_nodes] at hn
    obtain ⟨n0, hn0, hgn0⟩ := List.mem_map.mp hn
    have hgid : n.nodeid = n0.nodeid := by
      rw [← hgn0]
      by_cases hh : (n0.peerid == some a.peerid) = true <;> simp [hh]
    rcases List.mem_append.mp he with hfr2 | hpd
    · obtain ⟨n1, hn1, hmk⟩ := List.mem_map.mp hfr2
      have hb1 := List.of_mem_filter hn1
      have hn1m := List.mem_of_mem_filter hn1
      have hn0id : n0.nodeid = n1.nodeid := by
        rw [← hgid, hni, ← hmk]
      have h01 : n0 = n1 := List.inj_on_of_nodup_map h2 hn0 hn1m hn0id
      rw [← hgn0, h01, if_pos hb1]
    · have hub := h3 e hpd n0 hn0 (by rw [← hgid]; exact hni)
      rw [← hgn0, if_neg (by simp [hub, NO_PEER])]
      exact hub

theorem demFold_J (L : List Peer) :
    ∀ s : PeerManager,
    (s.pendingNodes.map PendingNode.nodeid).Nodup →
    (s.nodes.map Node.nodeid).Nodup →
    (∀ e ∈ s.pendingNodes, ∀ n ∈ s.nodes,
        n.nodeid = e.nodeid → n.peerid = NO_PEER) →
    ((L.foldl PeerManager.demoteToOrphan s).pendingNodes.map PendingNode.nodeid).Nodup
    ∧ (∀ e ∈ (L.foldl PeerManager.demoteToOrphan s).pendingNodes,
        ∀ n ∈ (L.foldl PeerManager.demoteToOrphan s).nodes,
        n.nodeid = e.nodeid → n.peerid = NO_PEER) := by
  induction L with
  | nil => intro s h1 _ h3; exact ⟨h1, h3⟩
  | cons a t ih =>
    intro s h1 h2 h3
    obtain ⟨j1, j2, j3⟩ := demote_J s a h1 h2 h3
    rw [List.foldl_cons]
    exact ih (s.demoteToOrphan a) j1 j2 j3

theorem demFold_orphanPool (L : List Peer) :
    ∀ s : PeerManager,
    (∀ x ∈ L, ∀ q, q ∈ (L.map (fun y => y.proof)) ++ s.orphanPool →
        q ≠ x.proof → collidesB x.proof q = false) →
    (∀ x ∈ L, x.proof ∉ s.orphanPool) →
    L.Pairwise (fun a b => a.proof ≠ b.proof) →
    (L.foldl PeerManager.demoteToOrphan s).orphanPool
      = (L.map (fun y => y.proof)).reverse ++ s.orphanPool := by
  induction L with
  | nil => intro s _ _ _; rfl
  | cons a t ih =>
    intro s hnc hself hpw
    have hq : ∀ q ∈ s.orphanPool, collidesB a.proof q = false := by
      intro q hq2
      apply hnc a (by simp) q (List.mem_append_right _ hq2)
      intro hEq
      exact hself a (by simp) (hEq ▸ hq2)
    have hstep : (s.demoteToOrphan a).orphanPool = a.proof :: s.orphanPool := by
      rw [demoteToOrphan_orphanPool, poolAdd_nocollide a.proof s.orphanPool hq]
    have hpwh := (List.pairwise_cons.mp hpw).1
    have hpwt := (List.pairwise_cons.mp hpw).2
    rw [List.foldl_cons, ih (s.demoteToOrphan a) ?hnc2 ?hself2 hpwt, hstep,
      List.map_cons, List.reverse_cons, List.append_assoc]
    rfl
    case hnc2 =>
      intro x hx q hq2 hne
      apply hnc x (by simp [hx]) q ?_ hne
      rw [hstep] at hq2
      rcases List.mem_append.mp hq2 with hq3 | hq4
      · exact List.mem_append_left _ (by simp [List.mem_map.mp hq3])
      · rcases List.mem_cons.mp hq4 with hq5 | hq6
        · exact List.mem_append_left _ (by rw [hq5]; simp)
        · exact List.mem_append_right _ hq6
    case hself2 =>
      intro x hx
      rw [hstep]
      intro hmem
      rcases List.mem_cons.mp hmem with hq5 | hq6
      · exact (hpwh x hx).symm hq5
      · exact hself x (by simp [hx]) hq6

theorem foldBind_nodeids_nodup (pid : Nat) :
    ∀ (L : List PendingNode) (nodes : List Node),
    (nodes.map Node.nodeid).Nodup →
    ((L.foldl (fun ns x => bindNode ns x.nodeid pid) nodes).map Node.nodeid).Nodup := by
  intro L
  induction L with
  | nil => intro nodes h; exact h
  | cons a t ih =>
    intro nodes h
    rw [List.foldl_cons]
    exact ih (bindNode nodes a.nodeid pid) (bindNode_nodeids_nodup nodes a.nodeid pid h)

theorem foldBind_mem_other (pid : Nat) :
    ∀ (L : List PendingNode) (nodes : List Node) (n : Node),
    n ∈ L.foldl (fun ns x => bindNode ns x.nodeid pid) nodes →
    (∀ x ∈ L, n.nodeid ≠ x.nodeid) →
    n ∈ nodes := by
  intro L
  induction L with
  | nil => intro nodes n hn _; exact hn
  | cons a t ih =>
    intro nodes n hn hne
    rw [List.foldl_cons] at hn
    exact bindNode_mem_other nodes a.nodeid pid n
      (ih (bindNode nodes a.nodeid pid) n hn (fun x hx => hne x (by simp [hx])))
      (hne a (by simp))

theorem regFold_spec (cv : CoinView) (now cooldown : Nat) (repl : Bool) :
    ∀ (R : List Proof) (s : PeerManager),
    (∀ O ∈ R, validB cv O = true) →
    (∀ O ∈ R, s.isBoundToPeerB O.proofId = false
        ∧ s.isOrphanB O.proofId = false
        ∧ s.isInConflictingPoolB O.proofId = false
        ∧ ∀ pr ∈ s.peers, collidesB O pr.proof = false) →
    R.Pairwise (fun a b => a.proofId ≠ b.proofId ∧ collidesB b a = false) →
    (s.pendingNodes.map PendingNode.nodeid).Nodup →
    (s.nodes.map Node.nodeid).Nodup →
    (∀ e ∈ s.pendingNodes, ∀ n ∈ s.nodes, n.nodeid = e.nodeid → n.peerid = NO_PEER) →
    (∀ O ∈ R, (regFold cv now cooldown repl R s).isBoundToPeerB O.proofId = true)
    ∧ (∀ x, s.isBoundToPeerB x = true →
        (regFold cv now cooldown repl R s).isBoundToPeerB x = true)
    ∧ (∀ x, (regFold cv now cooldown repl R s).isBoundToPeerB x = true →
        s.isBoundToPeerB x = true ∨ ∃ O ∈ R, O.proofId = x)
    ∧ (regFold cv now cooldown repl R s).orphanPool = s.orphanPool
    ∧ (regFold cv now cooldown repl R s).conflictingPool = s.conflictingPool
    ∧ (∀ nid, (∀ e ∈ s.pendingNodes, e.nodeid ≠ nid) →
        (regFold cv now cooldown repl R s).nodes.find? (fun m => m.nodeid == nid)
          = s.nodes.find? (fun m => m.nodeid == nid))
    ∧ (∀ e ∈ s.pendingNodes, (∀ O ∈ R, e.proofId ≠ O.proofId) →
        e ∈ (regFold cv now cooldown repl R s).pendingNodes)
    ∧ (∀ e, e ∈ (regFold cv now cooldown repl R s).pendingNodes →
        e ∈ s.pendingNodes)
    ∧ (∀ e ∈ s.pendingNodes, ∀ O ∈ R, e.proofId = O.proofId →
        (regFold cv now cooldown repl R s).forNodeB e.nodeid
            (fun m => !(m.peerid == NO_PEER)) = true
        ∧ (regFold cv now cooldown repl R s).isNodePendingB e.nodeid = false) := by
  intro R
  induction R with
  | nil =>
    intro s _ _ _ _ _ _
    refine ⟨?_, ?_, ?_, rfl, rfl, ?_, ?_, ?_, ?_⟩
    · intro O hO; cases hO
    · intro x h; exact h
    · intro x h; exact Or.inl h
    · intro nid _; rfl
    · intro e he _; exact he
    · intro e he; exact he
    · intro e _ O hO; cases hO
  | cons O R ih =>
    intro s hval hguard hpair hJ1 hJ2 hJ3
    obtain ⟨g1, g2, g3, g4⟩ := hguard O (by simp)
    have hok : utxoCheck cv O.stakes = .ok := by
      have hv := hval O (by simp)
      unfold validB at hv
      cases h : utxoCheck cv O.stakes with
      | ok => rfl
      | missing => rw [h] at hv; simp at hv
      | mismatch => rw [h] at hv; simp at hv
    have hfil : s.peers.filter (fun pr => collidesB O pr.proof) = [] := by
      rw [List.filter_eq_nil]
      intro pr hpr
      simp [g4 pr hpr]
    have hstep : (s.registerProof cv now cooldown repl O .DEFAULT).1
        = s.accept O now := by
      rw [registerProof_default_ok s cv now cooldown repl O g1 g2 g3 hok,
        handleCollisions_noColliders s now cooldown repl O .DEFAULT (by rw [hfil]; rfl)]
    have hfold : regFold cv now cooldown repl (O :: R) s
        = regFold cv now cooldown repl R (s.accept O now) := by
      unfold regFold
      rw [List.foldl_cons, hstep]
    have hpairh := (List.pairwise_cons.mp hpair).1
    have hpairt := (List.pairwise_cons.mp hpair).2
    have hval2 : ∀ q ∈ R, validB cv q = true := fun q h => hval q (by simp [h])
    have hguard2 : ∀ q ∈ R,
        (s.accept O now).isBoundToPeerB q.proofId = false
        ∧ (s.accept O now).isOrphanB q.proofId = false
        ∧ (s.accept O now).isInConflictingPoolB q.proofId = false
        ∧ ∀ pr ∈ (s.accept O now).peers, collidesB q pr.proof = false := by
      intro q hq
      obtain ⟨k1, k2, k3, k4⟩ := hguard q (by simp [hq])
      obtain ⟨hneq, hncol⟩ := hpairh q hq
      refine ⟨?_, k2, k3, ?_⟩
      · unfold PeerManager.isBoundToPeerB at k1 ⊢
        rw [accept_peers, List.any_append, k1]
        simp [hneq]
      · intro pr hpr
        rw [accept_peers] at hpr
        rcases List.mem_append.mp hpr with hp1 | hp2
        · exact k4 pr hp1
        · rw [List.mem_singleton] at hp2
          rw [hp2]
          exact hncol
    have hJ1' : ((s.accept O now).pendingNodes.map PendingNode.nodeid).Nodup := by
      rw [accept_pendingNodes]
      exact List.Nodup.sublist (List.Sublist.map _ (List.filter_sublist _)) hJ1
    have hJ2' : ((s.accept O now).nodes.map Node.nodeid).Nodup := by
      rw [accept_nodes]
      exact foldBind_nodeids_nodup s.nextPeerId _ s.nodes hJ2
    have hJ3' : ∀ e ∈ (s.accept O now).pendingNodes,
        ∀ n ∈ (s.accept O now).nodes, n.nodeid = e.nodeid → n.peerid = NO_PEER := by
      intro e he n hn hni
      rw [accept_pendingNodes] at he
      rw [accept_nodes] at hn
      have hes := List.mem_of_mem_filter he
      have hepred := List.of_mem_filter he
      have hnmem : n ∈ s.nodes := by
        apply foldBind_mem_other s.nextPeerId _ s.nodes n hn
        intro x hx hcx
        have hxs := List.mem_of_mem_filter hx
        have hxpred := List.of_mem_filter hx
        have hxe : x = e :=
          List.inj_on_of_nodup_map hJ1 hxs hes (by rw [← hcx]; exact hni)
        rw [hxe] at hxpred
        simp [hxpred] at hepred
      exact hJ3 e hes n hnmem hni
    obtain ⟨c1, c2, c3, c4, c5, c6, c7, c8, c9⟩ :=
      ih (s.accept O now) hval2 hguard2 hpairt hJ1' hJ2' hJ3'
    rw [hfold]
    refine ⟨?_, ?_, ?_, ?_, ?_, ?_, ?_, ?_, ?_⟩
    · intro q hq
      rcases List.mem_cons.mp hq with heq | hmem
      · subst heq
        exact c2 q.proofId (accept_isBound s q now)
      · exact c1 q hmem
    · intro x hx
      apply c2
      unfold PeerManager.isBoundToPeerB at hx ⊢
      rw [accept_peers, List.any_append, hx]
      rfl
    · intro x hx
      rcases c3 x hx with h1 | h2
      · unfold PeerManager.isBoundToPeerB at h1
        rw [accept_peers, List.any_append, Bool.or_eq_true] at h1
        rcases h1 with ha | hb
        · exact Or.inl ha
        · right
          refine ⟨O, by simp, ?_⟩
          simpa using hb
      · right
        obtain ⟨q, hq, hid⟩ := h2
        exact ⟨q, by simp [hq], hid⟩
    · rw [c4, accept_orphanPool]
    · rw [c5, accept_conflictingPool]
    · intro nid hnid
      have hnid1 : ∀ e ∈ (s.accept O now).pendingNodes, e.nodeid ≠ nid := by
        intro e he
        rw [accept_pendingNodes] at he
        exact hnid e (List.mem_of_mem_filter he)
      rw [c6 nid hnid1, accept_nodes]
      apply foldBind_find_untouched
      intro x hx
      exact hnid x (List.mem_of_mem_filter hx)
    · intro e he hne
      have he1 : e ∈ (s.accept O now).pendingNodes := by
        rw [accept_pendingNodes]
        refine List.mem_filter.mpr ⟨he, ?_⟩
        simp [hne O (by simp)]
      exact c7 e he1 (fun q hq => hne q (by simp [hq]))
    · intro e he
      have he2 := c8 e he
      rw [accept_pendingNodes] at he2
      exact List.mem_of_mem_filter he2
    · intro e he q hq hid
      rcases List.mem_cons.mp hq with heq | hmem
      · subst heq
        have heT : e ∈ s.pendingNodes.filter (fun x => x.proofId == q.proofId) :=
          List.mem_filter.mpr ⟨he, by simp [hid]⟩
        have hndT : ((s.pendingNodes.filter (fun x => x.proofId == q.proofId)).map
            PendingNode.nodeid).Nodup :=
          List.Nodup.sublist (List.Sublist.map PendingNode.nodeid
            (List.filter_sublist s.pendingNodes)) hJ1
        obtain ⟨t, ht⟩ := foldBind_find_mem s.nextPeerId _ s.nodes e heT hndT
        have hnotin : ∀ x ∈ (s.accept q now).pendingNodes, x.nodeid ≠ e.nodeid := by
          intro x hx hcx
          rw [accept_pendingNodes] at hx
          have hxs := List.mem_of_mem_filter hx
          have hxpred := List.of_mem_filter hx
          have hxe : x = e := List.inj_on_of_nodup_map hJ1 hxs he hcx
          rw [hxe] at hxpred
          simp [hid] at hxpred
        constructor
        · unfold PeerManager.forNodeB
          rw [c6 e.nodeid hnotin, accept_nodes, ht]
          simp [NO_PEER]
        · apply Bool.eq_false_iff.mpr
          intro hc
          unfold PeerManager.isNodePendingB at hc
          rw [List.any_eq_true] at hc
          obtain ⟨x, hx, hpx⟩ := hc
          have hx1 := c8 x hx
          rw [beq_iff_eq] at hpx
          exact hnotin x hx1 hpx
      · have hid2 : ¬(e.proofId == O.proofId) = true := by
          rw [beq_iff_eq, hid]
          exact fun hh => (hpairh q hmem).1 hh.symm
        have he1 : e ∈ (s.accept O now).pendingNodes := by
          rw [accept_pendingNodes]
          exact List.mem_filter.mpr ⟨he, by simpa using hid2⟩
        exact c9 e he1 q hmem hid

theorem tipConflicting_empty (pm : PeerManager) (cv : CoinView) (now : Nat)
    (h : pm.conflictingPool = []) :
    pm.tipConflicting cv now = { pm with conflictingPool := [] } := by
  unfold PeerManager.tipConflicting
  rw [h]
  rfl

/-- Claim C8: after `updated_block_tip`, every tracked orphan that now
satisfies the coin view is re-registered as a peer and leaves the orphan
pool, every peer whose proof no longer satisfies the coin view becomes an
orphan, is no longer bound, and its formerly bound nodes are pending;
proofs whose chain status did not change keep their classification; and a
pending node announcing a promoted proof is rebound to a peer and leaves
the pending table.  Stated for a manager whose tracked proofs are
pairwise non-conflicting with distinct ids (conflict resolution between
colliding proofs is governed by the registration path, claims C4–C6), an
empty conflicting pool, and key-unique peer, node and pending tables. -/
theorem claim_C8_updated_block_tip (pm : PeerManager) (cv : CoinView)
    (now cooldown : Nat) (repl : Bool)
    (hconf : pm.conflictingPool = [])
    (hids : ((pm.peers.map (fun pr => pr.proof) ++ pm.orphanPool).map
        Proof.proofId).Nodup)
    (hnc : ∀ p ∈ pm.peers.map (fun pr => pr.proof) ++ pm.orphanPool,
        ∀ q ∈ pm.peers.map (fun pr => pr.proof) ++ pm.orphanPool,
        p.proofId ≠ q.proofId → collidesB p q = false)
    (hper : (pm.peers.map Peer.peerid).Nodup)
    (hJ1 : (pm.pendingNodes.map PendingNode.nodeid).Nodup)
    (hJ2 : (pm.nodes.map Node.nodeid).Nodup)
    (hJ3 : ∀ e ∈ pm.pendingNodes, ∀ n ∈ pm.nodes,
        n.nodeid = e.nodeid → n.peerid = NO_PEER) :
    (∀ O ∈ pm.orphanPool, validB cv O = true →
        (pm.updatedBlockTip cv now cooldown repl).isBoundToPeerB O.proofId = true
        ∧ (pm.updatedBlockTip cv now cooldown repl).isOrphanB O.proofId = false)
    ∧ (∀ pr ∈ pm.peers, validB cv pr.proof = false →
        (pm.updatedBlockTip cv now cooldown repl).isOrphanB pr.proof.proofId = true
        ∧ (pm.updatedBlockTip cv now cooldown repl).isBoundToPeerB
            pr.proof.proofId = false
        ∧ ∀ n ∈ pm.nodes, n.peerid = some pr.peerid →
            (pm.updatedBlockTip cv now cooldown repl).isNodePendingB n.nodeid
              = true)
    ∧ (∀ pr ∈ pm.peers, validB cv pr.proof = true →
        (pm.updatedBlockTip cv now cooldown repl).isBoundToPeerB
          pr.proof.proofId = true)
    ∧ (∀ O ∈ pm.orphanPool, validB cv O = false →
        (pm.updatedBlockTip cv now cooldown repl).isOrphanB O.proofId = true)
    ∧ (∀ e ∈ pm.pendingNodes, ∀ O ∈ pm.orphanPool, e.proofId = O.proofId →
        validB cv O = true →
        (pm.updatedBlockTip cv now cooldown repl).forNodeB e.nodeid
            (fun m => !(m.peerid == NO_PEER)) = true
        ∧ (pm.updatedBlockTip cv now cooldown repl).isNodePendingB e.nodeid
            = false) := by
  -- id bookkeeping from the tracked-proof nodup hypothesis
  have hidm : ((pm.peers.map (fun pr => pr.proof)).map Proof.proofId
      ++ pm.orphanPool.map Proof.proofId).Nodup := by
    rw [← List.map_append]
    exact hids
  obtain ⟨hnd1, hnd2, hdisj12⟩ := List.nodup_append.mp hidm
  have hinjO : ∀ p ∈ pm.orphanPool, ∀ q ∈ pm.orphanPool,
      p.proofId = q.proofId → p = q :=
    fun p hp q hq h => List.inj_on_of_nodup_map hnd2 hp hq h
  have hinjP : ∀ x ∈ pm.peers, ∀ y ∈ pm.peers,
      x.proof.proofId = y.proof.proofId → x = y := by
    have hn : (pm.peers.map (fun pr => pr.proof.proofId)).Nodup := by
      have h2 := hnd1
      rw [List.map_map] at h2
      exact h2
    exact fun x hx y hy h => List.inj_on_of_nodup_map hn hx hy h
  have hinjPer : ∀ x ∈ pm.peers, ∀ y ∈ pm.peers, x.peerid = y.peerid → x = y :=
    fun x hx y hy h => List.inj_on_of_nodup_map hper hx hy h
  have hcross : ∀ x ∈ pm.peers, ∀ q ∈ pm.orphanPool,
      x.proof.proofId ≠ q.proofId := by
    intro x hx q hq hEq
    exact hdisj12
      (List.mem_map_of_mem Proof.proofId (List.mem_map_of_mem _ hx))
      (hEq ▸ List.mem_map_of_mem Proof.proofId hq)
  -- the demote stage
  obtain ⟨pm1, hpm1⟩ : ∃ x, pm.tipDemote cv = x := ⟨_, rfl⟩
  have F1 : pm1.conflictingPool = [] := by
    rw [← hpm1]
    unfold PeerManager.tipDemote
    rw [demFold_conflictingPool]
    exact hconf
  have F2 : pm1.peers = pm.peers.filter (fun q =>
      !((pm.peers.filter (fun pr => !(validB cv pr.proof))).any
        (fun x => q.peerid == x.peerid))) := by
    rw [← hpm1]
    unfold PeerManager.tipDemote
    exact demFold_peers _ pm
  have hLsubP : ∀ x ∈ pm.peers.filter (fun pr => !(validB cv pr.proof)),
      x ∈ pm.peers := fun x hx => List.mem_of_mem_filter hx
  have F3 : pm1.orphanPool
      = ((pm.peers.filter (fun pr => !(validB cv pr.proof))).map
          (fun y => y.proof)).reverse ++ pm.orphanPool := by
    rw [← hpm1]
    unfold PeerManager.tipDemote
    apply demFold_orphanPool
    · intro x hx q hq hne
      have hxt : x.proof ∈ pm.peers.map (fun pr => pr.proof) ++ pm.orphanPool :=
        List.mem_append_left _ (List.mem_map_of_mem _ (hLsubP x hx))
      have hqt : q ∈ pm.peers.map (fun pr => pr.proof) ++ pm.orphanPool := by
        rcases List.mem_append.mp hq with h1 | h2
        · obtain ⟨y, hy, hyq⟩ := List.mem_map.mp h1
          exact List.mem_append_left _
            (hyq ▸ List.mem_map_of_mem _ (hLsubP y hy))
        · exact List.mem_append_right _ h2
      apply hnc x.proof hxt q hqt
      intro hEq
      exact hne (List.inj_on_of_nodup_map hids hqt hxt hEq.symm)
    · intro x hx hmem
      exact hdisj12
        (List.mem_map_of_mem Proof.proofId (List.mem_map_of_mem _ (hLsubP x hx)))
        (List.mem_map_of_mem Proof.proofId hmem)
    · have hpw : pm.peers.Pairwise (fun a b => a.proof.proofId ≠ b.proof.proofId) := by
        have hn : (pm.peers.map (fun pr => pr.proof.proofId)).Nodup := by
          have h2 := hnd1
          rw [List.map_map] at h2
          exact h2
        exact List.pairwise_map.mp hn
      exact (List.Pairwise.sublist (List.filter_sublist _) hpw).imp
        (fun h hEq => h (by rw [hEq]))
  have F4 : pm1.nodes.map Node.nodeid = pm.nodes.map Node.nodeid := by
    rw [← hpm1]
    unfold PeerManager.tipDemote
    exact demFold_nodeids _ pm
  obtain ⟨G1, G3⟩ : (pm1.pendingNodes.map PendingNode.nodeid).Nodup
      ∧ (∀ e ∈ pm1.pendingNodes, ∀ n ∈ pm1.nodes,
          n.nodeid = e.nodeid → n.peerid = NO_PEER) := by
    rw [← hpm1]
    unfold PeerManager.tipDemote
    exact demFold_J (pm.peers.filter (fun pr => !(validB cv pr.proof))) pm hJ1 hJ2 hJ3
  have G2 : (pm1.nodes.map Node.nodeid).Nodup := by
    rw [F4]
    exact hJ2
  -- the promote stage
  have hR1 : pm1.orphanPool.filter (fun p => validB cv p)
      = pm.orphanPool.filter (fun p => validB cv p) := by
    rw [F3, List.filter_append]
    have hrev : (((pm.peers.filter (fun pr => !(validB cv pr.proof))).map
        (fun y => y.proof)).reverse).filter (fun p => validB cv p) = [] := by
      rw [List.filter_eq_nil]
      intro q hq
      rw [List.mem_reverse] at hq
      obtain ⟨x, hx, hxq⟩ := List.mem_map.mp hq
      have hinv := List.of_mem_filter hx
      rw [Bool.not_eq_true'] at hinv
      rw [← hxq]
      simp [hinv]
    rw [hrev, List.nil_append]
  have hub2 : pm.updatedBlockTip cv now cooldown repl
      = (regFold cv now cooldown repl (pm.orphanPool.filter (fun p => validB cv p))
          { pm1 with
            orphanPool := pm1.orphanPool.filter
              (fun p => !(validB cv p)) }).tipConflicting cv now := by
    show ((pm.tipDemote cv).tipPromote cv now cooldown repl).tipConflicting cv now
      = _
    rw [hpm1, tipPromote_eq, hR1]
  have hvalR : ∀ O ∈ pm.orphanPool.filter (fun p => validB cv p),
      validB cv O = true := fun O hO => List.of_mem_filter hO
  have hRsub : ∀ O ∈ pm.orphanPool.filter (fun p => validB cv p),
      O ∈ pm.orphanPool := fun O hO => List.mem_of_mem_filter hO
  have hpm1peersSub : ∀ q ∈ pm1.peers, q ∈ pm.peers := by
    intro q hq
    rw [F2] at hq
    exact List.mem_of_mem_filter hq
  have hguardR : ∀ O ∈ pm.orphanPool.filter (fun p => validB cv p),
      pm1.isBoundToPeerB O.proofId = false
      ∧ (pm1.orphanPool.filter (fun p => !(validB cv p))).any
          (fun p => p.proofId == O.proofId) = false
      ∧ pm1.isInConflictingPoolB O.proofId = false
      ∧ ∀ pr ∈ pm1.peers, collidesB O pr.proof = false := by
    intro O hO
    have hOm := hRsub O hO
    refine ⟨?_, ?_, ?_, ?_⟩
    · apply Bool.eq_false_iff.mpr
      intro hc
      unfold PeerManager.isBoundToPeerB at hc
      rw [List.any_eq_true] at hc
      obtain ⟨q, hq, hqid⟩ := hc
      rw [beq_iff_eq] at hqid
      exact hcross q (hpm1peersSub q hq) O hOm hqid
    · show (pm1.orphanPool.filter (fun p => !(validB cv p))).any
        (fun p => p.proofId == O.proofId) = false
      apply Bool.eq_false_iff.mpr
      intro hc
      rw [List.any_eq_true] at hc
      obtain ⟨q, hq, hqid⟩ := hc
      rw [beq_iff_eq] at hqid
      have hqinv := List.of_mem_filter hq
      have hqm := List.mem_of_mem_filter hq
      rw [F3] at hqm
      rcases List.mem_append.mp hqm with h1 | h2
      · rw [List.mem_reverse] at h1
        obtain ⟨x, hx, hxq⟩ := List.mem_map.mp h1
        exact hcross x (hLsubP x hx) O hOm (by rw [hxq]; exact hqid)
      · have hqO : q = O := hinjO q h2 O hOm hqid
        rw [hqO] at hqinv
        rw [hvalR O hO] at hqinv
        simp at hqinv
    · show pm1.conflictingPool.any (fun p => p.proofId == O.proofId) = false
      rw [F1]
      rfl
    · intro pr hpr
      have hprm : pr ∈ pm.peers := hpm1peersSub pr hpr
      apply hnc O
        (List.mem_append_right _ hOm)
        pr.proof
        (List.mem_append_left _ (List.mem_map_of_mem _ hprm))
      exact fun hEq => hcross pr hprm O hOm hEq.symm
  have hpairR : (pm.orphanPool.filter (fun p => validB cv p)).Pairwise
      (fun a b => a.proofId ≠ b.proofId ∧ collidesB b a = false) := by
    have hpwO : pm.orphanPool.Pairwise (fun a b => a.proofId ≠ b.proofId) :=
      List.pairwise_map.mp hnd2
    have hpwR : (pm.orphanPool.filter (fun p => validB cv p)).Pairwise
        (fun a b => a.proofId ≠ b.proofId) :=
      List.Pairwise.sublist (List.filter_sublist _) hpwO
    apply List.Pairwise.imp_of_mem ?_ hpwR
    intro a b ha hb hne
    refine ⟨hne, ?_⟩
    apply hnc b (List.mem_append_right _ (hRsub b hb))
      a (List.mem_append_right _ (hRsub a ha))
    exact fun hEq => hne hEq.symm
  obtain ⟨d1, d2, d3, d4, d5, d6, d7, d8, d9⟩ :=
    regFold_spec cv now cooldown repl
      (pm.orphanPool.filter (fun p => validB cv p))
      { pm1 with orphanPool := pm1.orphanPool.filter (fun p => !(validB cv p)) }
      hvalR hguardR hpairR G1 G2 G3
  -- the conflicting stage is inert
  have hpm3 : (regFold cv now cooldown repl
        (pm.orphanPool.filter (fun p => validB cv p))
        { pm1 with orphanPool := pm1.orphanPool.filter (fun p => !(validB cv p)) }).tipConflicting cv now
      = { (regFold cv now cooldown repl
            (pm.orphanPool.filter (fun p => validB cv p))
            { pm1 with orphanPool := pm1.orphanPool.filter (fun p => !(validB cv p)) }) with conflictingPool := [] } := by
    apply tipConflicting_empty
    rw [d5]
    exact F1
  rw [hub2, hpm3]
  -- final transport helpers
  refine ⟨?_, ?_, ?_, ?_, ?_⟩
  · intro O hO hv
    have hOR : O ∈ pm.orphanPool.filter (fun p => validB cv p) :=
      List.mem_filter.mpr ⟨hO, hv⟩
    constructor
    · exact d1 O hOR
    · show (regFold cv now cooldown repl _ _).isOrphanB O.proofId = false
      unfold PeerManager.isOrphanB
      rw [d4]
      exact (hguardR O hOR).2.1
  · intro pr hpr hv
    have hprL : pr ∈ pm.peers.filter (fun x => !(validB cv x.proof)) :=
      List.mem_filter.mpr ⟨hpr, by simp [hv]⟩
    refine ⟨?_, ?_, ?_⟩
    · show (regFold cv now cooldown repl _ _).isOrphanB pr.proof.proofId = true
      unfold PeerManager.isOrphanB
      rw [d4]
      show (pm1.orphanPool.filter (fun p => !(validB cv p))).any
        (fun p => p.proofId == pr.proof.proofId) = true
      rw [List.any_eq_true]
      refine ⟨pr.proof, ?_, by simp⟩
      apply List.mem_filter.mpr
      refine ⟨?_, by simp [hv]⟩
      rw [F3]
      apply List.mem_append_left
      rw [List.mem_reverse]
      exact List.mem_map_of_mem _ hprL
    · show (regFold cv now cooldown repl _ _).isBoundToPeerB pr.proof.proofId
        = false
      apply Bool.eq_false_iff.mpr
      intro hc
      rcases d3 pr.proof.proofId hc with h1 | h2
      · unfold PeerManager.isBoundToPeerB at h1
        rw [List.any_eq_true] at h1
        obtain ⟨q, hq, hqid⟩ := h1
        rw [beq_iff_eq] at hqid
        have hqm : q ∈ pm.peers := hpm1peersSub q hq
        have hqpr : q = pr := hinjP q hqm pr hpr hqid
        rw [F2] at hq
        have hqpred := List.of_mem_filter hq
        rw [hqpr] at hqpred
        rw [Bool.not_eq_true'] at hqpred
        rw [Bool.eq_false_iff] at hqpred
        apply hqpred
        rw [List.any_eq_true]
        exact ⟨pr, hprL, by simp⟩
      · obtain ⟨O, hOR, hid⟩ := h2
        exact hcross pr hpr O (hRsub O hOR) hid.symm
    · intro n hn hb
      show (regFold cv now cooldown repl _ _).isNodePendingB n.nodeid = true
      unfold PeerManager.isNodePendingB
      rw [List.any_eq_true]
      refine ⟨PendingNode.mk pr.proof.proofId n.nodeid, ?_, by simp⟩
      apply d7
      · show PendingNode.mk pr.proof.proofId n.nodeid ∈ pm1.pendingNodes
        rw [← hpm1]
        unfold PeerManager.tipDemote
        apply demFold_freed _ pm
          (List.Nodup.sublist (List.Sublist.map _ (List.filter_sublist _)) hper)
          pr hprL n hn hb
      · intro O hOR hidc
        exact hcross pr hpr O (hRsub O hOR) hidc
  · intro pr hpr hv
    apply d2
    show pm1.isBoundToPeerB pr.proof.proofId = true
    unfold PeerManager.isBoundToPeerB
    rw [List.any_eq_true]
    refine ⟨pr, ?_, by simp⟩
    rw [F2]
    apply List.mem_filter.mpr
    refine ⟨hpr, ?_⟩
    have hany : (pm.peers.filter (fun x => !(validB cv x.proof))).any
        (fun x => pr.peerid == x.peerid) = false := by
      apply Bool.eq_false_iff.mpr
      intro hc
      rw [List.any_eq_true] at hc
      obtain ⟨x, hx, hxid⟩ := hc
      rw [beq_iff_eq] at hxid
      have hxpr : x = pr := hinjPer x (hLsubP x hx) pr hpr hxid.symm
      have hxpred := List.of_mem_filter hx
      rw [hxpr, Bool.not_eq_true'] at hxpred
      rw [hv] at hxpred
      cases hxpred
    rw [hany]
    rfl
  · intro O hO hv
    show (regFold cv now cooldown repl _ _).isOrphanB O.proofId = true
    unfold PeerManager.isOrphanB
    rw [d4]
    show (pm1.orphanPool.filter (fun p => !(validB cv p))).any
      (fun p => p.proofId == O.proofId) = true
    rw [List.any_eq_true]
    refine ⟨O, ?_, by simp⟩
    apply List.mem_filter.mpr
    refine ⟨?_, by simp [hv]⟩
    rw [F3]
    exact List.mem_append_right _ hO
  · intro e he O hO hid hv
    have hOR : O ∈ pm.orphanPool.filter (fun p => validB cv p) :=
      List.mem_filter.mpr ⟨hO, hv⟩
    have he1 : e ∈ pm1.pendingNodes := by
      rw [← hpm1]
      unfold PeerManager.tipDemote
      exact demFold_pending_mono _ pm e he
    exact d9 e he1 O hOR hid

theorem claim_C8_witness :
    ((PeerManager.mk [Slot.mk 0 10 (some 0)] 10 0
        [Peer.mk 0 (Proof.mk 9 1 0 [Stake.mk 100 10 5 false]) 0] []
        [Proof.mk 1 1 0 [Stake.mk 200 10 5 false]]
        [Node.mk 3 (some 0) 77] [PendingNode.mk 1 5] 1).updatedBlockTip
        [(200, 5)] 0 100 false).isBoundToPeerB 1 = true
    ∧ ((PeerManager.mk [Slot.mk 0 10 (some 0)] 10 0
        [Peer.mk 0 (Proof.mk 9 1 0 [Stake.mk 100 10 5 false]) 0] []
        [Proof.mk 1 1 0 [Stake.mk 200 10 5 false]]
        [Node.mk 3 (some 0) 77] [PendingNode.mk 1 5] 1).updatedBlockTip
        [(200, 5)] 0 100 false).isOrphanB 9 = true
    ∧ ((PeerManager.mk [Slot.mk 0 10 (some 0)] 10 0
        [Peer.mk 0 (Proof.mk 9 1 0 [Stake.mk 100 10 5 false]) 0] []
        [Proof.mk 1 1 0 [Stake.mk 200 10 5 false]]
        [Node.mk 3 (some 0) 77] [PendingNode.mk 1 5] 1).updatedBlockTip
        [(200, 5)] 0 100 false).isNodePendingB 3 = true
    ∧ ((PeerManager.mk [Slot.mk 0 10 (some 0)] 10 0
        [Peer.mk 0 (Proof.mk 9 1 0 [Stake.mk 100 10 5 false]) 0] []
        [Proof.mk 1 1 0 [Stake.mk 200 10 5 false]]
        [Node.mk 3 (some 0) 77] [PendingNode.mk 1 5] 1).updatedBlockTip
        [(200, 5)] 0 100 false).forNodeB 5 (fun m => !(m.peerid == NO_PEER))
      = true := by
  have h := claim_C8_updated_block_tip
    (PeerManager.mk [Slot.mk 0 10 (some 0)] 10 0
      [Peer.mk 0 (Proof.mk 9 1 0 [Stake.mk 100 10 5 false]) 0] []
      [Proof.mk 1 1 0 [Stake.mk 200 10 5 false]]
      [Node.mk 3 (some 0) 77] [PendingNode.mk 1 5] 1)
    [(200, 5)] 0 100 false
    (by decide) (by decide) (by decide) (by decide) (by decide) (by decide)
    (by decide)
  refine ⟨?_, ?_, ?_, ?_⟩
  · exact (h.1 (Proof.mk 1 1 0 [Stake.mk 200 10 5 false]) (by decide) (by decide)).1
  · exact (h.2.1 (Peer.mk 0 (Proof.mk 9 1 0 [Stake.mk 100 10 5 false]) 0)
      (by decide) (by decide)).1
  · exact (h.2.1 (Peer.mk 0 (Proof.mk 9 1 0 [Stake.mk 100 10 5 false]) 0)
      (by decide) (by decide)).2.2 (Node.mk 3 (some 0) 77) (by decide) rfl
  · exact (h.2.2.2.2 (PendingNode.mk 1 5) (by decide)
      (Proof.mk 1 1 0 [Stake.mk 200 10 5 false]) (by decide) rfl (by decide)).1

end Avalanche
